import Mathlib

/-!
# Verification of the `mapped_tree` keyed-tree container

A shallow embedding of `src/lib.rs` (crate `mapped_tree`).  The Rust type
`MappedTree<T>` stores a `HashMap<T, Links<T>>` together with a `size`
counter.  The hash map is modelled as an association list with unique keys
(`mapGet`, `mapAdjust`, `mapInsert`, `mapRemove` model `get`, `get_mut`
in-place mutation, `insert` and `remove`).  Iteration order of the map is
unspecified in Rust; the model fixes the arbitrary choice "first inserted
key first" for `keys().next()`.

Recursive operations (`root`'s parent walk, `remove_children`'s recursion)
are total in the model via an explicit fuel argument; fuel exhaustion
(`none`) models non-termination, and `none` results also model `panic!` /
`unwrap` aborts.  At every public entry point the fuel is
`links_by_obj.length + 1`, which suffices exactly when the Rust recursion
terminates.  `insert`'s two panics are modelled as a distinguishable
`Except` error, mirroring the two distinct panic messages.
-/

/-- `Links<T>`: link record of one key (`parent: Option<T>`, `children: Vec<T>`). -/
structure Links (T : Type) where
  parent : Option T
  children : List T
deriving DecidableEq

/-- `MappedTree<T>`: the link table plus the size counter. -/
structure MappedTree (T : Type) where
  links_by_obj : List (T × Links T)
  size : Nat
deriving DecidableEq

variable {T : Type} [DecidableEq T]

/-- Model of `HashMap::get`. -/
def mapGet (k : T) : List (T × Links T) → Option (Links T)
  | [] => none
  | (k', v) :: rest => if k' = k then some v else mapGet k rest

/-- Model of mutating the value behind `HashMap::get_mut` in place. -/
def mapAdjust (k : T) (f : Links T → Links T) : List (T × Links T) → List (T × Links T)
  | [] => []
  | (k', v) :: rest => if k' = k then (k', f v) :: rest else (k', v) :: mapAdjust k f rest

/-- Model of `HashMap::remove` (dropping the binding). -/
def mapRemove (k : T) : List (T × Links T) → List (T × Links T)
  | [] => []
  | (k', v) :: rest => if k' = k then mapRemove k rest else (k', v) :: mapRemove k rest

/-- Model of `HashMap::insert`: replace the value if the key is present,
otherwise add a binding. -/
def mapInsert (k : T) (v : Links T) (l : List (T × Links T)) : List (T × Links T) :=
  if (mapGet k l).isSome then mapAdjust k (fun _ => v) l else l ++ [(k, v)]

namespace MappedTree

/-- `MappedTree::new()`. -/
def new : MappedTree T := ⟨[], 0⟩

/-- `MappedTree::len()`. -/
def len (t : MappedTree T) : Nat := t.size

/-- The private accessor `links(&self, obj)`. -/
def links (t : MappedTree T) (obj : T) : Option (Links T) := mapGet obj t.links_by_obj

/-- `MappedTree::parent`. -/
def parent (t : MappedTree T) (obj : T) : Option T := (t.links obj).bind (·.parent)

/-- `MappedTree::children`. -/
def children (t : MappedTree T) (obj : T) : Option (List T) := (t.links obj).map (·.children)

/-- `MappedTree::contains`. -/
def contains (t : MappedTree T) (obj : T) : Bool := (t.links obj).isSome

/-- The keys currently present (in map iteration order). -/
def keysOf (t : MappedTree T) : List T := t.links_by_obj.map Prod.fst

/-- Fuel handed to every recursive walk at a public entry point. -/
def fuelOf (t : MappedTree T) : Nat := t.links_by_obj.length + 1

/-- The `while let Some(parent) = self.parent(&next)` loop of `root()`:
walk upward from `k`, `none` on fuel exhaustion (the Rust loop diverges). -/
def rootFrom (t : MappedTree T) : Nat → T → Option T
  | 0, _ => none
  | fuel + 1, k =>
    match t.parent k with
    | none => some k
    | some p => rootFrom t fuel p

/-- `MappedTree::root`. -/
def root (t : MappedTree T) : Option T :=
  match t.links_by_obj with
  | [] => none
  | (k, _) :: _ => rootFrom t t.fuelOf k

/-- Reparent each element of `cs` to `obj`
(the `for child in &children { ... parent = Some(obj) }` loop of
`reset_root`); `none` models the `unwrap` panic on an absent child. -/
def reparentAll (obj : T) : List T → MappedTree T → Option (MappedTree T)
  | [], t => some t
  | c :: cs, t =>
    match t.links c with
    | none => none
    | some _ => reparentAll obj cs ⟨mapAdjust c (fun l => ⟨some obj, l.children⟩) t.links_by_obj, t.size⟩

/-- `MappedTree::reset_root`.  Returns the tree and the old root key;
`none` models a panic or a diverging `root()` walk. -/
def reset_root (t : MappedTree T) (obj : T) : Option (MappedTree T × Option T) :=
  match t.links_by_obj with
  | [] =>
    some (⟨mapInsert obj ⟨none, []⟩ t.links_by_obj, t.size + 1⟩, none)
  | (k0, _) :: _ =>
    match rootFrom t t.fuelOf k0 with
    | none => none
    | some old_root =>
      match t.children old_root with
      | none => none
      | some cs =>
        match reparentAll obj cs t with
        | none => none
        | some t1 =>
          some (⟨mapInsert obj ⟨none, cs⟩ (mapRemove old_root t1.links_by_obj), t1.size⟩,
                some old_root)

/-- The two `panic!` conditions of `insert`, as a distinguishable error value. -/
inductive InsertError where
  | duplicateKey
  | missingParent
deriving DecidableEq

/-- `MappedTree::insert`.  The duplicate-key check comes first, then the
parent lookup, exactly as in the source; both happen before any mutation. -/
def insert (t : MappedTree T) (obj par : T) : Except InsertError (MappedTree T) :=
  if (mapGet obj t.links_by_obj).isSome then .error .duplicateKey
  else
    match mapGet par t.links_by_obj with
    | none => .error .missingParent
    | some _ =>
      .ok ⟨mapInsert obj ⟨some par, []⟩
             (mapAdjust par (fun l => ⟨l.parent, l.children ++ [obj]⟩) t.links_by_obj),
           t.size + 1⟩

/-- `links.children.clear()` behind `get_mut` (no-op when `obj` is absent). -/
def clearChildren (t : MappedTree T) (obj : T) : MappedTree T :=
  ⟨mapAdjust obj (fun l => ⟨l.parent, []⟩) t.links_by_obj, t.size⟩

/-- The `for child in &children { self.links_by_obj.remove(&child); }` loop. -/
def removeKeysList (ks : List T) (l : List (T × Links T)) : List (T × Links T) :=
  ks.foldl (fun m c => mapRemove c m) l

/-- `MappedTree::remove_children`, with fuel counting recursion depth.
One unfolding performs `remove_children_without_links` (recurse into each
child, then drop the children's records and subtract their count) and then
clears `obj`'s own children list. -/
def remove_children (fuel : Nat) (t : MappedTree T) (obj : T) : Option (MappedTree T) :=
  match fuel with
  | 0 => none
  | fuel' + 1 =>
    let step : Option (MappedTree T) :=
      match t.children obj with
      | none => some t
      | some cs =>
        match cs.foldl (fun acc c => acc.bind (fun s => remove_children fuel' s c)) (some t) with
        | none => none
        | some t1 => some ⟨removeKeysList cs t1.links_by_obj, t1.size - cs.length⟩
    step.map (fun s => s.clearChildren obj)

/-- `MappedTree::remove_children_without_links` (the private helper), at
one fuel level below its caller. -/
def remove_children_without_links (fuel : Nat) (t : MappedTree T) (obj : T) :
    Option (MappedTree T) :=
  match t.children obj with
  | none => some t
  | some cs =>
    match cs.foldl (fun acc c => acc.bind (fun s => remove_children fuel s c)) (some t) with
    | none => none
    | some t1 => some ⟨removeKeysList cs t1.links_by_obj, t1.size - cs.length⟩

/-- `iter().position(...)` on the children list. -/
def position (obj : T) : List T → Option Nat
  | [] => none
  | x :: xs => if x = obj then some 0 else (position obj xs).map (· + 1)

/-- `Vec::swap_remove`. -/
def swapRemove (l : List T) (i : Nat) : List T :=
  match l.getLast? with
  | none => []
  | some last => (l.set i last).dropLast

/-- `MappedTree::remove`.  Returns the updated tree and the boolean result;
`none` models a panic (inconsistent links) or divergence. -/
def remove (fuel : Nat) (t : MappedTree T) (obj : T) : Option (MappedTree T × Bool) :=
  match remove_children fuel t obj with
  | none => none
  | some t1 =>
    match t1.links obj with
    | none => some (t1, false)
    | some lks =>
      let t2 : MappedTree T := ⟨mapRemove obj t1.links_by_obj, t1.size - 1⟩
      match lks.parent with
      | none => some (t2, true)
      | some p =>
        match t2.links p with
        | none => none
        | some plinks =>
          match position obj plinks.children with
          | none => none
          | some i =>
            some (⟨mapAdjust p (fun l => ⟨l.parent, swapRemove l.children i⟩) t2.links_by_obj,
                   t2.size⟩, true)

/-- The mutating public operations, for reasoning about operation sequences. -/
inductive Op (T : Type) where
  | resetRoot (obj : T)
  | insertOp (obj par : T)
  | removeOp (obj : T)
  | removeChildrenOp (obj : T)

/-- One public operation, at the standard fuel.  `none` models a panic or
divergence: the program never reaches a state "after" such a call. -/
def applyOp (t : MappedTree T) : Op T → Option (MappedTree T)
  | .resetRoot obj => (t.reset_root obj).map Prod.fst
  | .insertOp obj par =>
    match t.insert obj par with
    | .ok t' => some t'
    | .error _ => none
  | .removeOp obj => (remove t.fuelOf t obj).map Prod.fst
  | .removeChildrenOp obj => remove_children t.fuelOf t obj

/-- Run a sequence of public operations from a given state. -/
def runFrom (t : MappedTree T) : List (Op T) → Option (MappedTree T)
  | [] => some t
  | op :: ops =>
    match applyOp t op with
    | none => none
    | some t' => runFrom t' ops

/-- Run a sequence of public operations from the empty tree. -/
def run (ops : List (Op T)) : Option (MappedTree T) := runFrom new ops

/-- Guard for the amended invariant claims: `reset_root` may only be called
with a key that is absent or is already parentless (the current root). -/
def okOp (t : MappedTree T) : Op T → Bool
  | .resetRoot obj => !t.contains obj || (t.parent obj).isNone
  | _ => true

/-- Run a sequence of public operations, refusing `reset_root` calls whose
argument is a present, non-parentless key. -/
def runGoodFrom (t : MappedTree T) : List (Op T) → Option (MappedTree T)
  | [] => some t
  | op :: ops =>
    match (if okOp t op then applyOp t op else none) with
    | none => none
    | some t' => runGoodFrom t' ops

/-- Guarded run from the empty tree. -/
def runGood (ops : List (Op T)) : Option (MappedTree T) := runGoodFrom new ops

/-! ## The well-formedness invariant (spec §3) -/

/-- The children list of `obj`, empty when `obj` is absent. -/
def childrenOf (t : MappedTree T) (obj : T) : List T := (t.children obj).getD []

/-- `rank` is the depth-from-root function of the link table: a parentless
key has rank 0 and a key's rank is one more than its parent's.  Existence
of such a function is the acyclicity invariant. -/
def Canon (t : MappedTree T) (rank : T → Nat) : Prop :=
  ∀ pr ∈ t.links_by_obj, rank pr.1 = (pr.2.parent.map (fun p => rank p + 1)).getD 0

/-- The decidable part of the invariant: unique keys, accurate size
counter, bidirectional parent/child links, duplicate-free child lists, at
most one parentless key. -/
def WFcore (t : MappedTree T) : Prop :=
  (keysOf t).Nodup ∧
  t.size = (keysOf t).length ∧
  (∀ pr ∈ t.links_by_obj, ∀ p ∈ pr.2.parent,
    ∃ e ∈ t.links_by_obj, e.1 = p ∧ pr.1 ∈ e.2.children) ∧
  (∀ pr ∈ t.links_by_obj, ∀ c ∈ pr.2.children,
    ∃ e ∈ t.links_by_obj, e.1 = c ∧ e.2.parent = some pr.1) ∧
  (∀ pr ∈ t.links_by_obj, pr.2.children.Nodup) ∧
  (∀ pr ∈ t.links_by_obj, ∀ qr ∈ t.links_by_obj,
    pr.2.parent = none → qr.2.parent = none → pr.1 = qr.1)

/-- The full invariant holding between public operations. -/
def WF (t : MappedTree T) : Prop := WFcore t ∧ ∃ rank : T → Nat, Canon t rank

/-- `Desc t k d`: `d` is reachable from `k` by one or more steps of the
children relation (`d` is a proper descendant of `k`). -/
inductive Desc (t : MappedTree T) : T → T → Prop where
  | child : ∀ {k c}, c ∈ childrenOf t k → Desc t k c
  | step : ∀ {k c d}, c ∈ childrenOf t k → Desc t c d → Desc t k d

/-- `PPath t y a`: from `y`, one or more applications of `parent` reach `a`. -/
inductive PPath (t : MappedTree T) : T → T → Prop where
  | single : ∀ {y a}, t.parent y = some a → PPath t y a
  | step : ∀ {y q a}, t.parent y = some q → PPath t q a → PPath t y a

/-- Working hypotheses threaded through the `remove_children` recursion:
the state is well formed, `rank` is its depth function, and all present
ranks are below `N`. -/
def Good (t : MappedTree T) (rank : T → Nat) (N : Nat) : Prop :=
  WFcore t ∧ Canon t rank ∧ ∀ y ∈ keysOf t, rank y < N

/-- What `remove_children` does to the link table: `k` keeps its parent but
loses its children list, every proper descendant of `k` is gone, and every
other key is untouched. -/
def RCOut (t : MappedTree T) (k : T) (lk : Links T) (t' : MappedTree T) : Prop :=
  t'.links k = some ⟨lk.parent, []⟩ ∧
  (∀ y, Desc t k y → t'.links y = none) ∧
  (∀ y, y ≠ k → ¬ Desc t k y → t'.links y = t.links y)

/-- Sequentially thread an optional state transformer over a list
(the shape of `remove_children`'s loop over a children snapshot). -/
def runEach (g : MappedTree T → T → Option (MappedTree T)) :
    MappedTree T → List T → Option (MappedTree T)
  | t, [] => some t
  | t, c :: cs =>
    match g t c with
    | none => none
    | some t1 => runEach g t1 cs

/-! ## Concrete instances: the 8-node scenario tree of spec §8, and the
operation sequence that corrupts the structure through `reset_root`. -/

/-- The operation sequence of the literal scenario: root `0` with children
`1, 2`; `1` has children `3, 4`; `2` has children `5, 6, 7`. -/
def t8ops : List (Op Nat) :=
  [Op.resetRoot 0, Op.insertOp 1 0, Op.insertOp 2 0, Op.insertOp 3 1, Op.insertOp 4 1,
   Op.insertOp 5 2, Op.insertOp 6 2, Op.insertOp 7 2]

/-- The state reached by `t8ops`. -/
def t8 : MappedTree Nat :=
  ⟨[(0, ⟨none, [1, 2]⟩), (1, ⟨some 0, [3, 4]⟩), (2, ⟨some 0, [5, 6, 7]⟩),
    (3, ⟨some 1, []⟩), (4, ⟨some 1, []⟩), (5, ⟨some 2, []⟩), (6, ⟨some 2, []⟩),
    (7, ⟨some 2, []⟩)], 8⟩

/-- The depth function of `t8`. -/
def rank8 : Nat → Nat := fun k => if k = 0 then 0 else if k = 1 ∨ k = 2 then 1 else 2

/-- A sequence of public operations after which the size counter and the
link table disagree: the final `reset_root` passes a key that is already
present as a non-root node. -/
def badOps : List (Op Nat) := [Op.resetRoot 0, Op.insertOp 1 0, Op.resetRoot 1]

instance (t : MappedTree T) (rank : T → Nat) : Decidable (Canon t rank) := by
  unfold Canon; infer_instance

instance (t : MappedTree T) : Decidable (WFcore t) := by
  unfold WFcore; infer_instance

/-! ## Association-list lemmas -/

theorem mapGet_adjust_self (k : T) (f : Links T → Links T) (l : List (T × Links T)) :
    mapGet k (mapAdjust k f l) = (mapGet k l).map f := by
  induction l with
  | nil => rfl
  | cons hd tl ih =>
    obtain ⟨a, v⟩ := hd
    by_cases h : a = k <;> simp [mapAdjust, mapGet, h, ih]

theorem mapGet_adjust_ne (k k' : T) (hne : k ≠ k') (f : Links T → Links T)
    (l : List (T × Links T)) : mapGet k' (mapAdjust k f l) = mapGet k' l := by
  induction l with
  | nil => rfl
  | cons hd tl ih =>
    obtain ⟨a, v⟩ := hd
    by_cases h : a = k
    · subst h
      simp [mapAdjust, mapGet, hne, Ne.symm hne]
    · by_cases h' : a = k' <;> simp [mapAdjust, mapGet, h, h', ih, Ne.symm hne]

theorem mapGet_remove_self (k : T) (l : List (T × Links T)) :
    mapGet k (mapRemove k l) = none := by
  induction l with
  | nil => rfl
  | cons hd tl ih =>
    obtain ⟨a, v⟩ := hd
    by_cases h : a = k <;> simp [mapRemove, mapGet, h, ih]

theorem mapGet_remove_ne (k k' : T) (hne : k ≠ k') (l : List (T × Links T)) :
    mapGet k' (mapRemove k l) = mapGet k' l := by
  induction l with
  | nil => rfl
  | cons hd tl ih =>
    obtain ⟨a, v⟩ := hd
    by_cases h : a = k
    · subst h
      simp [mapRemove, mapGet, hne, Ne.symm hne, ih]
    · by_cases h' : a = k' <;> simp [mapRemove, mapGet, h, h', ih, Ne.symm hne]

theorem mapGet_append (k : T) (l1 l2 : List (T × Links T)) :
    mapGet k (l1 ++ l2) =
      (match mapGet k l1 with
       | some v => some v
       | none => mapGet k l2) := by
  induction l1 with
  | nil => rfl
  | cons hd tl ih =>
    obtain ⟨a, v⟩ := hd
    by_cases h : a = k <;> simp [mapGet, h, ih]

theorem mapGet_insert_self (k : T) (v : Links T) (l : List (T × Links T)) :
    mapGet k (mapInsert k v l) = some v := by
  unfold mapInsert
  by_cases h : (mapGet k l).isSome
  · rw [if_pos h, mapGet_adjust_self]
    obtain ⟨w, hw⟩ := Option.isSome_iff_exists.mp h
    simp [hw]
  · rw [if_neg h, mapGet_append]
    rw [Option.not_isSome_iff_eq_none] at h
    simp [h, mapGet]

theorem mapGet_insert_ne (k k' : T) (hne : k ≠ k') (v : Links T) (l : List (T × Links T)) :
    mapGet k' (mapInsert k v l) = mapGet k' l := by
  unfold mapInsert
  by_cases h : (mapGet k l).isSome
  · rw [if_pos h, mapGet_adjust_ne k k' hne]
  · rw [if_neg h, mapGet_append]
    simp [mapGet, if_neg hne]
    cases mapGet k' l <;> simp

theorem keys_adjust (k : T) (f : Links T → Links T) (l : List (T × Links T)) :
    (mapAdjust k f l).map Prod.fst = l.map Prod.fst := by
  induction l with
  | nil => rfl
  | cons hd tl ih =>
    obtain ⟨a, v⟩ := hd
    by_cases h : a = k <;> simp [mapAdjust, h, ih]

theorem mapRemove_sublist (k : T) (l : List (T × Links T)) :
    (mapRemove k l).Sublist l := by
  induction l with
  | nil => simp [mapRemove]
  | cons hd tl ih =>
    obtain ⟨a, v⟩ := hd
    by_cases h : a = k
    · rw [mapRemove, if_pos h]
      exact ih.cons _
    · rw [mapRemove, if_neg h]
      exact ih.cons₂ _

theorem mapGet_eq_none_of_not_mem (k : T) (l : List (T × Links T))
    (h : k ∉ l.map Prod.fst) : mapGet k l = none := by
  induction l with
  | nil => rfl
  | cons hd tl ih =>
    obtain ⟨a, v⟩ := hd
    simp only [List.map_cons, List.mem_cons] at h
    push_neg at h
    simp [mapGet, Ne.symm h.1, ih h.2]

theorem mapGet_isSome_iff_mem (k : T) (l : List (T × Links T)) :
    (mapGet k l).isSome ↔ k ∈ l.map Prod.fst := by
  induction l with
  | nil => simp [mapGet]
  | cons hd tl ih =>
    obtain ⟨a, v⟩ := hd
    by_cases h : a = k
    · simp [mapGet, h]
    · simp [mapGet, h, ih, Ne.symm h]

theorem mapRemove_of_not_mem (k : T) (l : List (T × Links T))
    (h : k ∉ l.map Prod.fst) : mapRemove k l = l := by
  induction l with
  | nil => rfl
  | cons hd tl ih =>
    obtain ⟨a, v⟩ := hd
    simp only [List.map_cons, List.mem_cons] at h
    push_neg at h
    simp [mapRemove, Ne.symm h.1, ih h.2]

theorem keys_remove_length (k : T) (l : List (T × Links T))
    (hnd : (l.map Prod.fst).Nodup) (hmem : k ∈ l.map Prod.fst) :
    (mapRemove k l).length + 1 = l.length := by
  induction l with
  | nil => simp at hmem
  | cons hd tl ih =>
    obtain ⟨a, v⟩ := hd
    simp only [List.map_cons, List.nodup_cons] at hnd
    by_cases h : a = k
    · subst h
      rw [mapRemove, if_pos rfl, mapRemove_of_not_mem a tl hnd.1]
      simp
    · simp only [List.map_cons, List.mem_cons] at hmem
      rcases hmem with rfl | hmem
      · exact absurd rfl h
      · simp [mapRemove, h, ih hnd.2 hmem]

theorem mem_of_mapGet_eq_some {k : T} {v : Links T} {l : List (T × Links T)}
    (h : mapGet k l = some v) : (k, v) ∈ l := by
  induction l with
  | nil => simp [mapGet] at h
  | cons hd tl ih =>
    obtain ⟨a, w⟩ := hd
    by_cases ha : a = k
    · subst ha
      rw [mapGet, if_pos rfl] at h
      obtain rfl := Option.some_inj.mp h
      exact List.mem_cons_self _ _
    · rw [mapGet, if_neg ha] at h
      exact List.mem_cons_of_mem _ (ih h)

theorem mapGet_eq_some_of_mem {k : T} {v : Links T} {l : List (T × Links T)}
    (hnd : (l.map Prod.fst).Nodup) (h : (k, v) ∈ l) : mapGet k l = some v := by
  induction l with
  | nil => simp at h
  | cons hd tl ih =>
    obtain ⟨a, w⟩ := hd
    simp only [List.map_cons, List.nodup_cons] at hnd
    rcases List.mem_cons.mp h with heq | hmem
    · obtain ⟨rfl, rfl⟩ := Prod.mk.injEq .. ▸ heq
      simp [mapGet]
    · have hak : a ≠ k := by
        rintro rfl
        exact hnd.1 (List.mem_map_of_mem Prod.fst hmem)
      rw [mapGet, if_neg hak]
      exact ih hnd.2 hmem

theorem removeKeysList_cons (k : T) (ks : List T) (l : List (T × Links T)) :
    removeKeysList (k :: ks) l = removeKeysList ks (mapRemove k l) := rfl

theorem mapGet_removeKeysList (y : T) (ks : List T) (l : List (T × Links T)) :
    mapGet y (removeKeysList ks l) = if y ∈ ks then none else mapGet y l := by
  induction ks generalizing l with
  | nil => simp [removeKeysList]
  | cons k ks ih =>
    rw [removeKeysList_cons, ih]
    by_cases hy : y ∈ ks
    · simp [hy]
    · by_cases hyk : y = k
      · subst hyk
        simp [hy, mapGet_remove_self]
      · simp [hy, hyk, mapGet_remove_ne k y (Ne.symm hyk)]

theorem removeKeysList_sublist (ks : List T) (l : List (T × Links T)) :
    (removeKeysList ks l).Sublist l := by
  induction ks generalizing l with
  | nil => simp [removeKeysList]
  | cons k ks ih =>
    rw [removeKeysList_cons]
    exact (ih (mapRemove k l)).trans (mapRemove_sublist k l)

theorem removeKeysList_length (ks : List T) (l : List (T × Links T))
    (hnd : (l.map Prod.fst).Nodup) (hks : ks.Nodup)
    (hall : ∀ c ∈ ks, (mapGet c l).isSome) :
    (removeKeysList ks l).length + ks.length = l.length := by
  induction ks generalizing l with
  | nil => simp [removeKeysList]
  | cons k ks ih =>
    rw [removeKeysList_cons]
    have hmem : k ∈ l.map Prod.fst :=
      (mapGet_isSome_iff_mem k l).mp (hall k (List.mem_cons_self _ _))
    have hnd' : ((mapRemove k l).map Prod.fst).Nodup :=
      ((mapRemove_sublist k l).map Prod.fst).nodup hnd
    have hks' := (List.nodup_cons.mp hks).2
    have hknotin := (List.nodup_cons.mp hks).1
    have hall' : ∀ c ∈ ks, (mapGet c (mapRemove k l)).isSome := by
      intro c hc
      rw [mapGet_remove_ne k c (fun h => hknotin (h ▸ hc))]
      exact hall c (List.mem_cons_of_mem _ hc)
    have h1 := ih (mapRemove k l) hnd' hks' hall'
    have h2 := keys_remove_length k l hnd hmem
    simp only [List.length_cons]
    omega

/-! ## Accessor and invariant bridge lemmas -/

theorem contains_iff_mem_keys (t : MappedTree T) (k : T) :
    t.contains k = true ↔ k ∈ keysOf t := by
  simpa [contains, links, keysOf] using mapGet_isSome_iff_mem k t.links_by_obj

theorem contains_eq_true_iff (t : MappedTree T) (k : T) :
    t.contains k = true ↔ ∃ lk, t.links k = some lk := by
  simp [contains, links, Option.isSome_iff_exists]

theorem contains_eq_false_iff (t : MappedTree T) (k : T) :
    t.contains k = false ↔ t.links k = none := by
  cases h : t.links k <;> simp [contains, h]

theorem parent_eq_some_iff (t : MappedTree T) (k p : T) :
    t.parent k = some p ↔ ∃ lk, t.links k = some lk ∧ lk.parent = some p := by
  unfold parent
  cases h : t.links k <;> simp

theorem parent_eq_none_of_absent {t : MappedTree T} {k : T} (h : t.links k = none) :
    t.parent k = none := by
  simp [parent, h]

theorem children_eq_some {t : MappedTree T} {k : T} {lk : Links T}
    (h : t.links k = some lk) : t.children k = some lk.children := by
  simp [children, h]

theorem children_eq_none {t : MappedTree T} {k : T} (h : t.links k = none) :
    t.children k = none := by
  simp [children, h]

theorem childrenOf_eq {t : MappedTree T} {k : T} {lk : Links T}
    (h : t.links k = some lk) : childrenOf t k = lk.children := by
  simp [childrenOf, children, h]

theorem childrenOf_absent {t : MappedTree T} {k : T} (h : t.links k = none) :
    childrenOf t k = [] := by
  simp [childrenOf, children, h]

theorem WFcore.keys_nodup {t : MappedTree T} (h : WFcore t) : (keysOf t).Nodup := h.1

theorem WFcore.size_eq {t : MappedTree T} (h : WFcore t) : t.size = (keysOf t).length := h.2.1

theorem WFcore.parent_in {t : MappedTree T} (h : WFcore t) {k : T} {lk : Links T} {p : T}
    (hk : t.links k = some lk) (hp : lk.parent = some p) :
    ∃ lp, t.links p = some lp ∧ k ∈ lp.children := by
  obtain ⟨e, he, hep, hmem⟩ := h.2.2.1 (k, lk) (mem_of_mapGet_eq_some hk) p (hp ▸ rfl)
  obtain ⟨e1, e2⟩ := e
  subst hep
  exact ⟨e2, mapGet_eq_some_of_mem h.keys_nodup he, hmem⟩

theorem WFcore.child_parent {t : MappedTree T} (h : WFcore t) {k : T} {lk : Links T} {c : T}
    (hk : t.links k = some lk) (hc : c ∈ lk.children) :
    ∃ lc, t.links c = some lc ∧ lc.parent = some k := by
  obtain ⟨e, he, hec, hpar⟩ := h.2.2.2.1 (k, lk) (mem_of_mapGet_eq_some hk) c hc
  obtain ⟨e1, e2⟩ := e
  subst hec
  exact ⟨e2, mapGet_eq_some_of_mem h.keys_nodup he, hpar⟩

theorem WFcore.children_nodup {t : MappedTree T} (h : WFcore t) {k : T} {lk : Links T}
    (hk : t.links k = some lk) : lk.children.Nodup :=
  h.2.2.2.2.1 (k, lk) (mem_of_mapGet_eq_some hk)

theorem WFcore.one_root {t : MappedTree T} (h : WFcore t) {k1 k2 : T} {l1 l2 : Links T}
    (h1 : t.links k1 = some l1) (h2 : t.links k2 = some l2)
    (hp1 : l1.parent = none) (hp2 : l2.parent = none) : k1 = k2 :=
  h.2.2.2.2.2 (k1, l1) (mem_of_mapGet_eq_some h1) (k2, l2) (mem_of_mapGet_eq_some h2) hp1 hp2

theorem Canon.rank_root {t : MappedTree T} {rank : T → Nat} (hc : Canon t rank)
    {k : T} {lk : Links T} (hk : t.links k = some lk) (hp : lk.parent = none) :
    rank k = 0 := by
  have := hc (k, lk) (mem_of_mapGet_eq_some hk)
  simpa [hp] using this

theorem Canon.rank_parent {t : MappedTree T} {rank : T → Nat} (hc : Canon t rank)
    {k : T} {lk : Links T} {p : T} (hk : t.links k = some lk) (hp : lk.parent = some p) :
    rank k = rank p + 1 := by
  have := hc (k, lk) (mem_of_mapGet_eq_some hk)
  simpa [hp] using this

theorem Canon.root_of_rank_zero {t : MappedTree T} {rank : T → Nat} (hc : Canon t rank)
    {k : T} {lk : Links T} (hk : t.links k = some lk) (hr : rank k = 0) :
    lk.parent = none := by
  cases hp : lk.parent with
  | none => rfl
  | some p => simp [hc.rank_parent hk hp] at hr

/-! ## Parent paths and descendants -/

theorem PPath.append {t : MappedTree T} {y q a : T}
    (h1 : PPath t y q) (h2 : PPath t q a) : PPath t y a := by
  induction h1 with
  | single h => exact PPath.step h h2
  | step h _ ih => exact PPath.step h (ih h2)

theorem PPath.rank_lt {t : MappedTree T} {rank : T → Nat} (hc : Canon t rank)
    {y a : T} (h : PPath t y a) : rank a < rank y := by
  induction h with
  | single h =>
    obtain ⟨lk, hlk, hp⟩ := (parent_eq_some_iff ..).mp h
    simp [hc.rank_parent hlk hp]
  | step h _ ih =>
    obtain ⟨lk, hlk, hp⟩ := (parent_eq_some_iff ..).mp h
    have := hc.rank_parent hlk hp
    omega

theorem PPath.trichotomy {t : MappedTree T} {y c1 : T} (h1 : PPath t y c1) :
    ∀ c2, PPath t y c2 → c1 = c2 ∨ PPath t c1 c2 ∨ PPath t c2 c1 := by
  induction h1 with
  | single h =>
    intro c2 h2
    cases h2 with
    | single h' => rw [h] at h'; exact Or.inl (Option.some_inj.mp h')
    | step h' hp =>
      rw [h] at h'
      obtain rfl := Option.some_inj.mp h'
      exact Or.inr (Or.inl hp)
  | step h hp ih =>
    intro c2 h2
    cases h2 with
    | single h' =>
      rw [h] at h'
      obtain rfl := Option.some_inj.mp h'
      exact Or.inr (Or.inr hp)
    | step h' hp2 =>
      rw [h] at h'
      obtain rfl := Option.some_inj.mp h'
      exact ih c2 hp2

theorem Desc.trans {t : MappedTree T} {a b c : T}
    (h1 : Desc t a b) (h2 : Desc t b c) : Desc t a c := by
  induction h1 with
  | child h => exact Desc.step h h2
  | step h _ ih => exact Desc.step h (ih h2)

/-- A member of a children list is present and points back at its parent. -/
theorem childrenOf_mem_links {t : MappedTree T} (hwf : WFcore t) {k c : T}
    (hc : c ∈ childrenOf t k) : ∃ lc, t.links c = some lc ∧ lc.parent = some k := by
  cases hk : t.links k with
  | none => rw [childrenOf_absent hk] at hc; simp at hc
  | some lk =>
    rw [childrenOf_eq hk] at hc
    exact hwf.child_parent hk hc

theorem pp_of_child {t : MappedTree T} (hwf : WFcore t) {k c : T}
    (hc : c ∈ childrenOf t k) : PPath t c k := by
  obtain ⟨lc, hlc, hp⟩ := childrenOf_mem_links hwf hc
  exact PPath.single ((parent_eq_some_iff ..).mpr ⟨lc, hlc, hp⟩)

theorem Desc.links_isSome {t : MappedTree T} (hwf : WFcore t) {k y : T}
    (h : Desc t k y) : ∃ ly, t.links y = some ly := by
  induction h with
  | child hc =>
    obtain ⟨lc, hlc, _⟩ := childrenOf_mem_links hwf hc
    exact ⟨lc, hlc⟩
  | step _ _ ih => exact ih

theorem Desc.to_pp {t : MappedTree T} (hwf : WFcore t) {a b : T}
    (h : Desc t a b) : PPath t b a := by
  induction h with
  | child hc => exact pp_of_child hwf hc
  | step hc _ ih => exact ih.append (pp_of_child hwf hc)

theorem Desc.of_pp {t : MappedTree T} (hwf : WFcore t) {a b : T}
    (h : PPath t b a) : Desc t a b := by
  induction h with
  | single h =>
    obtain ⟨lk, hlk, hp⟩ := (parent_eq_some_iff ..).mp h
    obtain ⟨lp, hlp, hmem⟩ := hwf.parent_in hlk hp
    exact Desc.child (childrenOf_eq hlp ▸ hmem)
  | step h _ ih =>
    obtain ⟨lk, hlk, hp⟩ := (parent_eq_some_iff ..).mp h
    obtain ⟨lp, hlp, hmem⟩ := hwf.parent_in hlk hp
    exact ih.trans (Desc.child (childrenOf_eq hlp ▸ hmem))

theorem Desc.rank_increase {t : MappedTree T} {rank : T → Nat} (hwf : WFcore t)
    (hc : Canon t rank) {k y : T} (h : Desc t k y) : rank k < rank y :=
  (h.to_pp hwf).rank_lt hc

theorem Desc.irrefl {t : MappedTree T} {rank : T → Nat} (hwf : WFcore t)
    (hc : Canon t rank) {k : T} (h : Desc t k k) : False := by
  have := h.rank_increase hwf hc
  omega

/-- Subtrees of two distinct children of the same key are disjoint. -/
theorem Desc.sibling_disjoint {t : MappedTree T} {rank : T → Nat} (hwf : WFcore t)
    (hc : Canon t rank) {c1 c2 k y : T}
    (h1 : t.parent c1 = some k) (h2 : t.parent c2 = some k) (hne : c1 ≠ c2)
    (hd1 : Desc t c1 y) (hd2 : Desc t c2 y) : False := by
  obtain ⟨lk1, hlk1, hp1⟩ := (parent_eq_some_iff ..).mp h1
  obtain ⟨lk2, hlk2, hp2⟩ := (parent_eq_some_iff ..).mp h2
  have hr1 := hc.rank_parent hlk1 hp1
  have hr2 := hc.rank_parent hlk2 hp2
  rcases (hd1.to_pp hwf).trichotomy c2 (hd2.to_pp hwf) with heq | hp | hp
  · exact hne heq
  · have := hp.rank_lt hc
    omega
  · have := hp.rank_lt hc
    omega

/-! ## Rank bound and `root` -/

theorem mem_keys_of_links {t : MappedTree T} {k : T} {lk : Links T}
    (hk : t.links k = some lk) : k ∈ keysOf t := by
  refine (mapGet_isSome_iff_mem k t.links_by_obj).mp ?_
  unfold links at hk
  simp [hk]

/-- Along the parent chain of a present key there are `rank k + 1` distinct
present keys, so the depth of any present key is below the key count. -/
theorem rank_chain {t : MappedTree T} {rank : T → Nat} (hwf : WFcore t) (hc : Canon t rank) :
    ∀ n, ∀ k, ∀ lk, t.links k = some lk → rank k = n →
      ∃ l : List T, l.Nodup ∧ (∀ y ∈ l, y ∈ keysOf t) ∧ l.length = n + 1 ∧
        ∀ y ∈ l, rank y ≤ n := by
  intro n
  induction n with
  | zero =>
    intro k lk hk hr
    exact ⟨[k], by simp, by simpa using mem_keys_of_links hk, by simp, by simp [hr]⟩
  | succ m ih =>
    intro k lk hk hr
    cases hp : lk.parent with
    | none => simp [hc.rank_root hk hp] at hr
    | some p =>
      have hrp : rank p = m := by have := hc.rank_parent hk hp; omega
      obtain ⟨lp, hlp, _⟩ := hwf.parent_in hk hp
      obtain ⟨l, hnd, hsub, hlen, hrk⟩ := ih p lp hlp hrp
      refine ⟨k :: l, List.nodup_cons.mpr ⟨fun hkl => ?_, hnd⟩, ?_, by simp [hlen], ?_⟩
      · have := hrk k hkl
        omega
      · intro y hy
        rcases List.mem_cons.mp hy with rfl | hy
        · exact mem_keys_of_links hk
        · exact hsub y hy
      · intro y hy
        rcases List.mem_cons.mp hy with rfl | hy
        · omega
        · have := hrk y hy
          omega

theorem rank_lt_keys_length {t : MappedTree T} {rank : T → Nat} (hwf : WFcore t)
    (hc : Canon t rank) {k : T} {lk : Links T} (hk : t.links k = some lk) :
    rank k < (keysOf t).length := by
  obtain ⟨l, hnd, hsub, hlen, _⟩ := rank_chain hwf hc (rank k) k lk hk rfl
  have := (hnd.subperm fun y hy => hsub y hy).length_le
  omega

theorem rootFrom_parent_none {t : MappedTree T} :
    ∀ fuel, ∀ {k r : T}, rootFrom t fuel k = some r → t.parent r = none := by
  intro fuel
  induction fuel with
  | zero => intro k r h; simp [rootFrom] at h
  | succ f ih =>
    intro k r h
    rw [rootFrom] at h
    cases hp : t.parent k with
    | none => rw [hp] at h; obtain rfl := Option.some_inj.mp h; exact hp
    | some p => rw [hp] at h; exact ih h

theorem rootFrom_present {t : MappedTree T} (hwf : WFcore t) :
    ∀ fuel, ∀ {k r : T} {lk : Links T}, t.links k = some lk →
      rootFrom t fuel k = some r → ∃ lr, t.links r = some lr := by
  intro fuel
  induction fuel with
  | zero => intro k r lk _ h; simp [rootFrom] at h
  | succ f ih =>
    intro k r lk hk h
    rw [rootFrom] at h
    cases hp : t.parent k with
    | none => rw [hp] at h; obtain rfl := Option.some_inj.mp h; exact ⟨lk, hk⟩
    | some p =>
      rw [hp] at h
      obtain ⟨lk', hlk', hp'⟩ := (parent_eq_some_iff ..).mp hp
      obtain ⟨lp, hlp, _⟩ := hwf.parent_in hlk' hp'
      exact ih hlp h

/-- With enough fuel, the parent walk from a present key succeeds. -/
theorem rootFrom_succeeds {t : MappedTree T} {rank : T → Nat} (hwf : WFcore t)
    (hc : Canon t rank) :
    ∀ fuel, ∀ {k : T} {lk : Links T}, t.links k = some lk → rank k < fuel →
      ∃ r, rootFrom t fuel k = some r := by
  intro fuel
  induction fuel with
  | zero => intro k lk _ h; omega
  | succ f ih =>
    intro k lk hk hlt
    cases hp : lk.parent with
    | none =>
      have hpar : t.parent k = none := by simp [parent, hk, hp]
      exact ⟨k, by rw [rootFrom, hpar]⟩
    | some p =>
      have hpar : t.parent k = some p := (parent_eq_some_iff ..).mpr ⟨lk, hk, hp⟩
      obtain ⟨lp, hlp, _⟩ := hwf.parent_in hk hp
      have hrp : rank p < f := by have := hc.rank_parent hk hp; omega
      obtain ⟨r, hr⟩ := ih hlp hrp
      exact ⟨r, by rw [rootFrom, hpar]; exact hr⟩

/-- On a well-formed non-empty tree, `root()` returns a present parentless key. -/
theorem root_spec {t : MappedTree T} {rank : T → Nat} (hwf : WFcore t) (hc : Canon t rank)
    (hne : t.links_by_obj ≠ []) :
    ∃ r lr, root t = some r ∧ t.links r = some lr ∧ lr.parent = none := by
  cases hl : t.links_by_obj with
  | nil => exact absurd hl hne
  | cons hd rest =>
    have hhd : t.links hd.1 = some hd.2 := by
      unfold links
      rw [hl, mapGet, if_pos rfl]
    have hfuel : rank hd.1 < t.fuelOf := by
      have := rank_lt_keys_length hwf hc hhd
      unfold fuelOf keysOf at *
      simp only [List.length_map] at this
      omega
    obtain ⟨r, hr⟩ := rootFrom_succeeds hwf hc t.fuelOf hhd hfuel
    obtain ⟨lr, hlr⟩ := rootFrom_present hwf t.fuelOf hhd hr
    have hpn : t.parent r = none := rootFrom_parent_none t.fuelOf hr
    have hlrp : lr.parent = none := by
      unfold parent at hpn
      rw [hlr] at hpn
      simpa using hpn
    refine ⟨r, lr, ?_, hlr, hlrp⟩
    unfold root
    rw [hl]
    have : (hd :: rest : List (T × Links T)) = t.links_by_obj := hl.symm
    cases hd
    exact hr

/-! ## The children loop -/

theorem foldl_bind_none (g : MappedTree T → T → Option (MappedTree T)) (cs : List T) :
    cs.foldl (fun acc c => acc.bind (fun s => g s c)) none = none := by
  induction cs with
  | nil => rfl
  | cons c cs ih => simpa using ih

theorem foldl_bind_eq_runEach (g : MappedTree T → T → Option (MappedTree T))
    (t : MappedTree T) (cs : List T) :
    cs.foldl (fun acc c => acc.bind (fun s => g s c)) (some t) = runEach g t cs := by
  induction cs generalizing t with
  | nil => rfl
  | cons c cs ih =>
    rw [runEach]
    cases h : g t c with
    | none => simpa [h] using foldl_bind_none g cs
    | some t1 => simpa [h] using ih t1

theorem remove_children_unfold (fuel : Nat) (t : MappedTree T) (obj : T) :
    remove_children (fuel + 1) t obj =
      (match t.children obj with
       | none => some t
       | some cs =>
         match runEach (fun s c => remove_children fuel s c) t cs with
         | none => none
         | some t1 => some ⟨removeKeysList cs t1.links_by_obj, t1.size - cs.length⟩).map
        (fun s : MappedTree T => s.clearChildren obj) := by
  rw [remove_children]
  cases t.children obj with
  | none => rfl
  | some cs => simp only [foldl_bind_eq_runEach]

/-! ## More descendant lemmas -/

theorem Desc.head_cases {t : MappedTree T} {k y : T} (h : Desc t k y) :
    y ∈ childrenOf t k ∨ ∃ c ∈ childrenOf t k, Desc t c y := by
  cases h with
  | child hc => exact Or.inl hc
  | step hc hd => exact Or.inr ⟨_, hc, hd⟩

theorem Desc.parent_decomp {t : MappedTree T} (hwf : WFcore t) {a b q : T}
    (hd : Desc t a b) (hq : t.parent b = some q) : q = a ∨ Desc t a q := by
  cases hd.to_pp hwf with
  | single h =>
    rw [hq] at h
    exact Or.inl (Option.some_inj.mp h)
  | step h hp =>
    rw [hq] at h
    obtain rfl := Option.some_inj.mp h
    exact Or.inr (Desc.of_pp hwf hp)

/-- Distinct keys with the same parent have disjoint subtrees; in
particular neither is a descendant of the other. -/
theorem sibling_not_desc {t : MappedTree T} {rank : T → Nat} (hwf : WFcore t)
    (hc : Canon t rank) {c c' k0 : T} {lc lc' : Links T}
    (hlc : t.links c = some lc) (hpc : lc.parent = some k0)
    (hlc' : t.links c' = some lc') (hpc' : lc'.parent = some k0)
    (hne : c ≠ c') : ¬ Desc t c c' := by
  intro hd
  have hrc := hc.rank_parent hlc hpc
  have hrc' := hc.rank_parent hlc' hpc'
  have hpark0 : t.parent c' = some k0 := (parent_eq_some_iff ..).mpr ⟨lc', hlc', hpc'⟩
  cases hd.to_pp hwf with
  | single h =>
    rw [hpark0] at h
    obtain rfl := Option.some_inj.mp h
    omega
  | step h hp =>
    rw [hpark0] at h
    obtain rfl := Option.some_inj.mp h
    have := hp.rank_lt hc
    omega

theorem childrenOf_links_congr {t t' : MappedTree T} {b : T}
    (h : t'.links b = t.links b) : childrenOf t' b = childrenOf t b := by
  simp [childrenOf, children, h]

/-- If two states agree on the records of `a` and all of `a`'s descendants
(taken in `t`), descendants transfer from `t'` to `t`. -/
theorem desc_agree_mp {t t' : MappedTree T} {a : T}
    (hag : ∀ z, z = a ∨ Desc t a z → t'.links z = t.links z) :
    ∀ {b y : T}, Desc t' b y → (b = a ∨ Desc t a b) → Desc t b y := by
  intro b y hd
  induction hd with
  | child hc =>
    intro hb
    rw [childrenOf_links_congr (hag _ hb)] at hc
    exact Desc.child hc
  | step hc _ ih =>
    intro hb
    rw [childrenOf_links_congr (hag _ hb)] at hc
    rcases hb with rfl | hdb
    · exact Desc.step hc (ih (Or.inr (Desc.child hc)))
    · exact Desc.step hc (ih (Or.inr (hdb.trans (Desc.child hc))))

/-- Converse direction of `desc_agree_mp`. -/
theorem desc_agree_mpr {t t' : MappedTree T} {a : T}
    (hag : ∀ z, z = a ∨ Desc t a z → t'.links z = t.links z) :
    ∀ {b y : T}, Desc t b y → (b = a ∨ Desc t a b) → Desc t' b y := by
  intro b y hd
  induction hd with
  | child hc =>
    intro hb
    rw [← childrenOf_links_congr (hag _ hb)] at hc
    exact Desc.child hc
  | step hc hd ih =>
    intro hb
    have hc' := hc
    rw [← childrenOf_links_congr (hag _ hb)] at hc'
    rcases hb with rfl | hdb
    · exact Desc.step hc' (ih (Or.inr (Desc.child hc)))
    · exact Desc.step hc' (ih (Or.inr (hdb.trans (Desc.child hc))))

theorem desc_agree_iff {t t' : MappedTree T} {a : T}
    (hag : ∀ z, z = a ∨ Desc t a z → t'.links z = t.links z) (y : T) :
    Desc t' a y ↔ Desc t a y :=
  ⟨fun h => desc_agree_mp hag h (Or.inl rfl), fun h => desc_agree_mpr hag h (Or.inl rfl)⟩

/-! ## Rebuilding the invariant from a `links` characterisation -/

theorem WFcore.of_links {t : MappedTree T}
    (hnd : (keysOf t).Nodup) (hsize : t.size = (keysOf t).length)
    (hpar : ∀ k lk p, t.links k = some lk → lk.parent = some p →
      ∃ lp, t.links p = some lp ∧ k ∈ lp.children)
    (hchild : ∀ k lk c, t.links k = some lk → c ∈ lk.children →
      ∃ lc, t.links c = some lc ∧ lc.parent = some k)
    (hchn : ∀ k lk, t.links k = some lk → lk.children.Nodup)
    (hone : ∀ k1 l1 k2 l2, t.links k1 = some l1 → t.links k2 = some l2 →
      l1.parent = none → l2.parent = none → k1 = k2) : WFcore t := by
  refine ⟨hnd, hsize, ?_, ?_, ?_, ?_⟩
  · rintro ⟨k, lk⟩ hmem p hp
    have hk : t.links k = some lk := mapGet_eq_some_of_mem hnd hmem
    obtain ⟨lp, hlp, hin⟩ := hpar k lk p hk (Option.mem_def.mp hp)
    exact ⟨(p, lp), mem_of_mapGet_eq_some hlp, rfl, hin⟩
  · rintro ⟨k, lk⟩ hmem c hcm
    have hk : t.links k = some lk := mapGet_eq_some_of_mem hnd hmem
    obtain ⟨lc, hlc, hpc⟩ := hchild k lk c hk hcm
    exact ⟨(c, lc), mem_of_mapGet_eq_some hlc, rfl, hpc⟩
  · rintro ⟨k, lk⟩ hmem
    exact hchn k lk (mapGet_eq_some_of_mem hnd hmem)
  · rintro ⟨k1, l1⟩ hm1 ⟨k2, l2⟩ hm2 hp1 hp2
    exact hone k1 l1 k2 l2 (mapGet_eq_some_of_mem hnd hm1) (mapGet_eq_some_of_mem hnd hm2)
      hp1 hp2

theorem Canon.of_agree {t : MappedTree T} {rank : T → Nat}
    (hnd : (keysOf t).Nodup)
    (h : ∀ k lk, t.links k = some lk →
      rank k = (lk.parent.map (fun p => rank p + 1)).getD 0) : Canon t rank := by
  rintro ⟨k, lk⟩ hmem
  exact h k lk (mapGet_eq_some_of_mem hnd hmem)

theorem Good.wf {t : MappedTree T} {rank : T → Nat} {N : Nat} (h : Good t rank N) :
    WFcore t := h.1

theorem Good.canon {t : MappedTree T} {rank : T → Nat} {N : Nat} (h : Good t rank N) :
    Canon t rank := h.2.1

theorem Good.bound {t : MappedTree T} {rank : T → Nat} {N : Nat} (h : Good t rank N)
    {y : T} {ly : Links T} (hy : t.links y = some ly) : rank y < N :=
  h.2.2 y (mem_keys_of_links hy)

theorem links_isSome_of_mem_keys {t : MappedTree T} {y : T} (h : y ∈ keysOf t) :
    ∃ ly, t.links y = some ly := by
  have := (mapGet_isSome_iff_mem y t.links_by_obj).mpr h
  simpa [links, Option.isSome_iff_exists] using this

theorem Canon.links_eq {t : MappedTree T} {rank : T → Nat} (hc : Canon t rank)
    {k : T} {lk : Links T} (hk : t.links k = some lk) :
    rank k = (lk.parent.map (fun p => rank p + 1)).getD 0 :=
  hc (k, lk) (mem_of_mapGet_eq_some hk)

/-! ## The `remove_children` specification -/

/-- One pass of `remove_children`'s loop over a snapshot of sibling keys,
given the behaviour of `remove_children` on single keys at fuel `fuel`. -/
theorem rcl_spec_aux {rank : T → Nat} {N : Nat} (fuel : Nat)
    (hrc : ∀ (s : MappedTree T) (k : T) (lk : Links T), Good s rank N →
      s.links k = some lk → N ≤ fuel + rank k →
      ∃ s', remove_children fuel s k = some s' ∧ Good s' rank N ∧ RCOut s k lk s') :
    ∀ (cs : List T) (t : MappedTree T) (k0 : T),
      Good t rank N →
      (∀ c ∈ cs, ∃ lc, t.links c = some lc ∧ lc.parent = some k0) →
      cs.Nodup →
      (∀ c ∈ cs, N ≤ fuel + rank c) →
      ∃ t', runEach (fun s c => remove_children fuel s c) t cs = some t' ∧
        Good t' rank N ∧
        (∀ y ∈ cs, ∃ ly, t.links y = some ly ∧ t'.links y = some ⟨ly.parent, []⟩) ∧
        (∀ y, (∃ c ∈ cs, Desc t c y) → y ∉ cs → t'.links y = none) ∧
        (∀ y, y ∉ cs → (∀ c ∈ cs, ¬ Desc t c y) → t'.links y = t.links y) := by
  intro cs
  induction cs with
  | nil =>
    intro t k0 hg _ _ _
    exact ⟨t, rfl, hg, by simp, by simp, fun y _ _ => rfl⟩
  | cons c cs ih =>
    intro t k0 hg hpar hnd hfuel
    obtain ⟨lc, hlc, hlcp⟩ := hpar c (List.mem_cons_self ..)
    obtain ⟨t1, hrun1, hg1, hck, hdesc1, hunch1⟩ :=
      hrc t c lc hg hlc (hfuel c (List.mem_cons_self ..))
    have hsib : ∀ c' ∈ cs, c ≠ c' ∧ ¬ Desc t c c' ∧ ¬ Desc t c' c := by
      intro c' hc'
      have hne : c ≠ c' := fun h => (List.nodup_cons.mp hnd).1 (h ▸ hc')
      obtain ⟨lc', hlc', hlcp'⟩ := hpar c' (List.mem_cons_of_mem _ hc')
      exact ⟨hne, sibling_not_desc hg.wf hg.canon hlc hlcp hlc' hlcp' hne,
             sibling_not_desc hg.wf hg.canon hlc' hlcp' hlc hlcp hne.symm⟩
    -- the first call leaves each later sibling's subtree untouched
    have hag : ∀ c' ∈ cs, ∀ z, z = c' ∨ Desc t c' z → t1.links z = t.links z := by
      intro c' hc' z hz
      obtain ⟨hne, hnd1, hnd2⟩ := hsib c' hc'
      obtain ⟨lc', hlc', hlcp'⟩ := hpar c' (List.mem_cons_of_mem _ hc')
      rcases hz with rfl | hdz
      · exact hunch1 z (Ne.symm hne) hnd1
      · refine hunch1 z ?_ ?_
        · rintro rfl
          exact hnd2 hdz
        · intro hcz
          exact Desc.sibling_disjoint hg.wf hg.canon
            ((parent_eq_some_iff ..).mpr ⟨lc, hlc, hlcp⟩)
            ((parent_eq_some_iff ..).mpr ⟨lc', hlc', hlcp'⟩) hne hcz hdz
    have hdesc_iff : ∀ c' ∈ cs, ∀ y, Desc t1 c' y ↔ Desc t c' y :=
      fun c' hc' y => desc_agree_iff (hag c' hc') y
    have hpar1 : ∀ c' ∈ cs, ∃ lc', t1.links c' = some lc' ∧ lc'.parent = some k0 := by
      intro c' hc'
      obtain ⟨lc', hlc', hlcp'⟩ := hpar c' (List.mem_cons_of_mem _ hc')
      exact ⟨lc', by rw [hag c' hc' c' (Or.inl rfl)]; exact hlc', hlcp'⟩
    obtain ⟨t2, hrun2, hg2, hA2, hB2, hC2⟩ :=
      ih t1 k0 hg1 hpar1 (List.nodup_cons.mp hnd).2
        (fun c' hc' => hfuel c' (List.mem_cons_of_mem _ hc'))
    have hcnotcs : c ∉ cs := (List.nodup_cons.mp hnd).1
    refine ⟨t2, ?_, hg2, ?_, ?_, ?_⟩
    · rw [runEach, hrun1]
      exact hrun2
    · -- each processed key keeps its parent and loses its children
      intro y hy
      rcases List.mem_cons.mp hy with rfl | hy
      · refine ⟨lc, hlc, ?_⟩
        rw [hC2 y hcnotcs ?_]
        · exact hck
        · intro c' hc' hd
          exact (hsib c' hc').2.2 ((hdesc_iff c' hc' y).mp hd)
      · obtain ⟨ly, hly1, hly2⟩ := hA2 y hy
        refine ⟨ly, ?_, hly2⟩
        rw [← hag y hy y (Or.inl rfl)]
        exact hly1
    · -- strict descendants of processed keys are gone
      intro y ⟨c0, hc0, hd⟩ hynot
      have hyncs : y ∉ cs := fun h => hynot (List.mem_cons_of_mem _ h)
      have hync : y ≠ c := fun h => hynot (h ▸ List.mem_cons_self ..)
      rcases List.mem_cons.mp hc0 with rfl | hc0
      · -- removed by the first call; never resurrected
        have h1 : t1.links y = none := hdesc1 y hd
        by_cases hex : ∃ c' ∈ cs, Desc t1 c' y
        · exact hB2 y hex hyncs
        · push_neg at hex
          rw [hC2 y hyncs hex]
          exact h1
      · exact hB2 y ⟨c0, hc0, (hdesc_iff c0 hc0 y).mpr hd⟩ hyncs
    · -- everything else untouched
      intro y hynot hnd'
      have hyncs : y ∉ cs := fun h => hynot (List.mem_cons_of_mem _ h)
      have hync : y ≠ c := fun h => hynot (h ▸ List.mem_cons_self ..)
      rw [hC2 y hyncs fun c' hc' hd => hnd' c' (List.mem_cons_of_mem _ hc')
            ((hdesc_iff c' hc' y).mp hd),
          hunch1 y hync (hnd' c (List.mem_cons_self ..))]

/-- Full specification of `remove_children fuel` on a well-formed state:
with fuel at least `N - rank k` the recursion terminates, preserves the
invariant, clears `k`'s children list, removes exactly the proper
descendants of `k`, and leaves every other record untouched. -/
theorem rc_spec {rank : T → Nat} {N : Nat} :
    ∀ (fuel : Nat) (t : MappedTree T) (k : T) (lk : Links T), Good t rank N →
      t.links k = some lk → N ≤ fuel + rank k →
      ∃ t', remove_children fuel t k = some t' ∧ Good t' rank N ∧ RCOut t k lk t' := by
  intro fuel
  induction fuel with
  | zero =>
    intro t k lk hg hk hfuel
    have := hg.bound hk
    omega
  | succ f ihf =>
    intro t k lk hg hk hfuel
    have hch : t.children k = some lk.children := children_eq_some hk
    have hknotin : k ∉ lk.children := by
      intro hmem
      obtain ⟨lc, hlc, hpc⟩ := hg.wf.child_parent hk hmem
      rw [hk] at hlc
      obtain rfl := Option.some_inj.mp hlc
      have := hg.canon.rank_parent hk hpc
      omega
    have hkdesc : ¬ Desc t k k := fun h => Desc.irrefl hg.wf hg.canon h
    have hcs_par : ∀ c ∈ lk.children, ∃ lcc, t.links c = some lcc ∧ lcc.parent = some k :=
      fun c hc => hg.wf.child_parent hk hc
    have hcs_fuel : ∀ c ∈ lk.children, N ≤ f + rank c := by
      intro c hc
      obtain ⟨lcc, hlcc, hpc⟩ := hcs_par c hc
      have := hg.canon.rank_parent hlcc hpc
      omega
    obtain ⟨tm, hrunm, hgm, hAm, hBm, hCm⟩ :=
      rcl_spec_aux f ihf lk.children t k hg hcs_par (hg.wf.children_nodup hk) hcs_fuel
    have hnotdesc_k : ∀ c ∈ lk.children, ¬ Desc t c k := by
      intro c hc hd
      exact hkdesc ((Desc.child (childrenOf_eq hk ▸ hc)).trans hd)
    have hmk : tm.links k = some lk := by
      rw [hCm k hknotin hnotdesc_k]
      exact hk
    -- the state produced by this unfolding of remove_children
    set t' : MappedTree T := MappedTree.clearChildren
        ⟨removeKeysList lk.children tm.links_by_obj, tm.size - lk.children.length⟩ k with ht'
    have heq : remove_children (f + 1) t k = some t' := by
      rw [remove_children_unfold, hch]
      simp only [hrunm]
      rfl
    have hT' : ∀ y, t'.links y =
        if y = k then (tm.links k).map (fun l => Links.mk l.parent [])
        else if y ∈ lk.children then none else tm.links y := by
      intro y
      show mapGet y (mapAdjust k (fun l => Links.mk l.parent [])
        (removeKeysList lk.children tm.links_by_obj)) = _
      by_cases hyk : y = k
      · subst hyk
        rw [if_pos rfl, mapGet_adjust_self, mapGet_removeKeysList, if_neg hknotin]
        rfl
      · rw [if_neg hyk, mapGet_adjust_ne k y (fun h => hyk h.symm), mapGet_removeKeysList]
        by_cases hyc : y ∈ lk.children
        · rw [if_pos hyc, if_pos hyc]
        · rw [if_neg hyc, if_neg hyc]
          rfl
    have hout1 : t'.links k = some ⟨lk.parent, []⟩ := by
      rw [hT' k, if_pos rfl, hmk]
      rfl
    have hout2 : ∀ y, Desc t k y → t'.links y = none := by
      intro y hd
      have hyk : y ≠ k := fun h => hkdesc (h ▸ hd)
      rw [hT' y, if_neg hyk]
      by_cases hyc : y ∈ lk.children
      · rw [if_pos hyc]
      · rw [if_neg hyc]
        rcases hd.head_cases with hmem | ⟨c, hc, hdc⟩
        · rw [childrenOf_eq hk] at hmem
          exact absurd hmem hyc
        · rw [childrenOf_eq hk] at hc
          exact hBm y ⟨c, hc, hdc⟩ hyc
    have hout3 : ∀ y, y ≠ k → ¬ Desc t k y → t'.links y = t.links y := by
      intro y hyk hd
      have hyc : y ∉ lk.children :=
        fun h => hd (Desc.child (by rw [childrenOf_eq hk]; exact h))
      rw [hT' y, if_neg hyk, if_neg hyc]
      exact hCm y hyc fun c hc hdc =>
        hd (Desc.step (by rw [childrenOf_eq hk]; exact hc) hdc)
    have hback : ∀ y ly', t'.links y = some ly' →
        ∃ lyt, t.links y = some lyt ∧ lyt.parent = ly'.parent := by
      intro y ly' hy
      by_cases hyk : y = k
      · subst hyk
        rw [hout1] at hy
        obtain rfl := Option.some_inj.mp hy
        exact ⟨lk, hk, rfl⟩
      · by_cases hd : Desc t k y
        · rw [hout2 y hd] at hy
          exact absurd hy (by simp)
        · rw [hout3 y hyk hd] at hy
          exact ⟨ly', hy, rfl⟩
    have hkeys' : keysOf t' = (removeKeysList lk.children tm.links_by_obj).map Prod.fst := by
      show (mapAdjust k _ _).map Prod.fst = _
      exact keys_adjust ..
    have hnd' : (keysOf t').Nodup := by
      rw [hkeys']
      exact ((removeKeysList_sublist ..).map Prod.fst).nodup hgm.wf.keys_nodup
    have hcs_some : ∀ c ∈ lk.children, (mapGet c tm.links_by_obj).isSome := by
      intro c hc
      obtain ⟨ly, _, h2⟩ := hAm c hc
      have : tm.links c = some ⟨ly.parent, []⟩ := h2
      unfold links at this
      simp [this]
    have hsize' : t'.size = (keysOf t').length := by
      have hlen := removeKeysList_length lk.children tm.links_by_obj hgm.wf.keys_nodup
        (hg.wf.children_nodup hk) hcs_some
      have hsm := hgm.wf.size_eq
      rw [hkeys']
      show tm.size - lk.children.length = _
      unfold keysOf at hsm
      simp only [List.length_map] at hsm ⊢
      omega
    have hwf' : WFcore t' := by
      refine WFcore.of_links hnd' hsize' ?_ ?_ ?_ ?_
      · intro y ly p hy hp
        by_cases hyk : y = k
        · subst hyk
          rw [hout1] at hy
          obtain rfl := Option.some_inj.mp hy
          have hpk : lk.parent = some p := hp
          obtain ⟨lp, hlp, hinp⟩ := hg.wf.parent_in hk hpk
          have hrk := hg.canon.rank_parent hk hpk
          have hpne : p ≠ y := by
            rintro rfl
            omega
          have hpd : ¬ Desc t y p := fun h => by
            have := h.rank_increase hg.wf hg.canon
            omega
          exact ⟨lp, by rw [hout3 p hpne hpd]; exact hlp, hinp⟩
        · by_cases hd : Desc t k y
          · rw [hout2 y hd] at hy
            exact absurd hy (by simp)
          · rw [hout3 y hyk hd] at hy
            obtain ⟨lp, hlp, hinp⟩ := hg.wf.parent_in hy hp
            have hpne : p ≠ k := by
              rintro rfl
              rw [hk] at hlp
              obtain rfl := Option.some_inj.mp hlp
              exact hd (Desc.child (by rw [childrenOf_eq hk]; exact hinp))
            have hpd : ¬ Desc t k p := by
              intro hdp
              exact hd (hdp.trans (Desc.child (by rw [childrenOf_eq hlp]; exact hinp)))
            exact ⟨lp, by rw [hout3 p hpne hpd]; exact hlp, hinp⟩
      · intro y ly c hy hc
        by_cases hyk : y = k
        · subst hyk
          rw [hout1] at hy
          obtain rfl := Option.some_inj.mp hy
          simp at hc
        · by_cases hd : Desc t k y
          · rw [hout2 y hd] at hy
            exact absurd hy (by simp)
          · rw [hout3 y hyk hd] at hy
            obtain ⟨lcc, hlcc, hpcc⟩ := hg.wf.child_parent hy hc
            by_cases hck' : c = k
            · subst hck'
              rw [hk] at hlcc
              obtain rfl := Option.some_inj.mp hlcc
              exact ⟨⟨lk.parent, []⟩, hout1, hpcc⟩
            · have hcd : ¬ Desc t k c := by
                intro hdc
                rcases hdc.parent_decomp hg.wf
                    ((parent_eq_some_iff ..).mpr ⟨lcc, hlcc, hpcc⟩) with rfl | hdy
                · exact hyk rfl
                · exact hd hdy
              exact ⟨lcc, by rw [hout3 c hck' hcd]; exact hlcc, hpcc⟩
      · intro y ly hy
        by_cases hyk : y = k
        · subst hyk
          rw [hout1] at hy
          obtain rfl := Option.some_inj.mp hy
          simp
        · by_cases hd : Desc t k y
          · rw [hout2 y hd] at hy
            exact absurd hy (by simp)
          · rw [hout3 y hyk hd] at hy
            exact hg.wf.children_nodup hy
      · intro y1 l1 y2 l2 h1 h2 hp1 hp2
        obtain ⟨m1, hm1, he1⟩ := hback y1 l1 h1
        obtain ⟨m2, hm2, he2⟩ := hback y2 l2 h2
        exact hg.wf.one_root hm1 hm2 (he1.trans hp1) (he2.trans hp2)
    have hcn' : Canon t' rank := by
      refine Canon.of_agree hnd' ?_
      intro y ly hy
      obtain ⟨m, hm, he⟩ := hback y ly hy
      rw [← he]
      exact hg.canon.links_eq hm
    have hbound' : ∀ y ∈ keysOf t', rank y < N := by
      intro y hy
      obtain ⟨ly, hly⟩ := links_isSome_of_mem_keys hy
      obtain ⟨m, hm, _⟩ := hback y ly hly
      exact hg.bound hm
    exact ⟨t', heq, ⟨hwf', hcn', hbound'⟩, hout1, hout2, hout3⟩

/-! ## `position` and `swap_remove` -/

theorem position_isSome_of_mem {k : T} : ∀ {l : List T}, k ∈ l → (position k l).isSome := by
  intro l
  induction l with
  | nil => intro h; simp at h
  | cons x xs ih =>
    intro h
    by_cases hx : x = k
    · simp [position, hx]
    · rcases List.mem_cons.mp h with rfl | h
      · exact absurd rfl hx
      · obtain ⟨i, hi⟩ := Option.isSome_iff_exists.mp (ih h)
        simp [position, hx, hi]

theorem position_lt_length {k : T} : ∀ {l : List T} {i : Nat},
    position k l = some i → i < l.length := by
  intro l
  induction l with
  | nil => intro i h; simp [position] at h
  | cons x xs ih =>
    intro i h
    rw [position] at h
    by_cases hx : x = k
    · rw [if_pos hx] at h
      obtain rfl := Option.some_inj.mp h
      simp
    · rw [if_neg hx] at h
      cases hp : position k xs with
      | none => rw [hp] at h; simp at h
      | some j =>
        rw [hp] at h
        simp only [Option.map_some'] at h
        obtain rfl := Option.some_inj.mp h
        have := ih hp
        simp
        omega

theorem position_perm {k : T} : ∀ {l : List T} {i : Nat},
    position k l = some i → List.Perm l (k :: l.eraseIdx i) := by
  intro l
  induction l with
  | nil => intro i h; simp [position] at h
  | cons x xs ih =>
    intro i h
    rw [position] at h
    by_cases hx : x = k
    · rw [if_pos hx] at h
      obtain rfl := Option.some_inj.mp h
      subst hx
      simp [List.eraseIdx]
    · rw [if_neg hx] at h
      cases hp : position k xs with
      | none => rw [hp] at h; simp at h
      | some j =>
        rw [hp] at h
        simp only [Option.map_some'] at h
        obtain rfl := Option.some_inj.mp h
        have hxs := ih hp
        have h1 : (x :: xs).Perm (x :: k :: xs.eraseIdx j) := hxs.cons x
        have h2 : (x :: k :: xs.eraseIdx j).Perm (k :: x :: xs.eraseIdx j) :=
          List.Perm.swap k x _
        exact h1.trans h2

theorem swapRemove_perm : ∀ (l : List T) (i : Nat), i < l.length →
    List.Perm (swapRemove l i) (l.eraseIdx i) := by
  intro l
  induction l with
  | nil => intro i h; simp at h
  | cons x xs ih =>
    intro i hi
    cases i with
    | zero =>
      cases xs with
      | nil => simp [swapRemove, List.eraseIdx]
      | cons y ys =>
        have hne : (y :: ys : List T) ≠ [] := by simp
        have hlast : (x :: y :: ys).getLast? = some ((y :: ys).getLast hne) := by
          rw [show (x :: y :: ys).getLast? = (y :: ys).getLast? from rfl]
          exact List.getLast?_eq_getLast _ hne
        rw [swapRemove, hlast]
        show (((y :: ys).getLast hne :: y :: ys).dropLast).Perm (y :: ys)
        rw [List.dropLast_cons_of_ne_nil hne]
        have h1 : (((y :: ys).getLast hne) :: (y :: ys).dropLast).Perm
            ((y :: ys).dropLast ++ [(y :: ys).getLast hne]) :=
          (List.perm_append_singleton ..).symm
        have h2 : (y :: ys).dropLast ++ [(y :: ys).getLast hne] = y :: ys :=
          List.dropLast_append_getLast hne
        have h3 : ((y :: ys).dropLast ++ [(y :: ys).getLast hne]).Perm (y :: ys) := by
          rw [h2]
        exact h1.trans h3
    | succ j =>
      have hxs : xs ≠ [] := by
        intro h
        subst h
        simp at hi
      have hlast : (x :: xs).getLast? = some (xs.getLast hxs) := by
        rw [show (x :: xs).getLast? = xs.getLast? from by cases xs with
          | nil => exact absurd rfl hxs
          | cons a l => rfl]
        exact List.getLast?_eq_getLast _ hxs
      have hlast2 : xs.getLast? = some (xs.getLast hxs) := List.getLast?_eq_getLast _ hxs
      have hj : j < xs.length := by simpa using hi
      rw [swapRemove, hlast]
      show ((x :: xs.set j (xs.getLast hxs)).dropLast).Perm (x :: xs.eraseIdx j)
      have hsetne : xs.set j (xs.getLast hxs) ≠ [] := by
        intro h
        have hlen : (xs.set j (xs.getLast hxs)).length = 0 := by rw [h]; rfl
        rw [List.length_set] at hlen
        omega
      rw [List.dropLast_cons_of_ne_nil hsetne]
      refine List.Perm.cons x ?_
      have := ih j hj
      rw [swapRemove, hlast2] at this
      exact this

/-- For a duplicate-free list, `swap_remove` at the position of `k` removes
exactly `k`. -/
theorem swapRemove_position_mem {l : List T} {k : T} {i : Nat} (hnd : l.Nodup)
    (hpos : position k l = some i) :
    (∀ y, y ∈ swapRemove l i ↔ y ∈ l ∧ y ≠ k) ∧ (swapRemove l i).Nodup := by
  have hlt := position_lt_length hpos
  have hperm := swapRemove_perm l i hlt
  have hperm2 := position_perm hpos
  have hnd2 : (k :: l.eraseIdx i).Nodup := hperm2.nodup hnd
  obtain ⟨hknot, hnde⟩ := List.nodup_cons.mp hnd2
  constructor
  · intro y
    rw [hperm.mem_iff]
    constructor
    · intro hy
      refine ⟨hperm2.symm.subset (List.mem_cons_of_mem _ hy), ?_⟩
      rintro rfl
      exact hknot hy
    · rintro ⟨hy, hyk⟩
      rcases List.mem_cons.mp (hperm2.subset hy) with rfl | h
      · exact absurd rfl hyk
      · exact h
  · exact (hperm.nodup_iff).mpr hnde

/-! ## No-op removals of absent keys -/

theorem mapAdjust_of_not_mem (k : T) (f : Links T → Links T) (l : List (T × Links T))
    (h : mapGet k l = none) : mapAdjust k f l = l := by
  induction l with
  | nil => rfl
  | cons hd tl ih =>
    obtain ⟨a, v⟩ := hd
    rw [mapGet] at h
    by_cases ha : a = k
    · rw [if_pos ha] at h
      simp at h
    · rw [if_neg ha] at h
      rw [mapAdjust, if_neg ha, ih h]

theorem clearChildren_absent {t : MappedTree T} {k : T} (h : t.links k = none) :
    t.clearChildren k = t := by
  unfold links at h
  show (⟨mapAdjust k _ t.links_by_obj, t.size⟩ : MappedTree T) = t
  rw [mapAdjust_of_not_mem _ _ _ h]

theorem remove_children_absent {t : MappedTree T} {k : T} (fuel : Nat)
    (h : t.links k = none) : remove_children (fuel + 1) t k = some t := by
  rw [remove_children_unfold, children_eq_none h]
  simp [clearChildren_absent h]

theorem remove_absent {t : MappedTree T} {k : T} (fuel : Nat)
    (h : t.links k = none) : remove (fuel + 1) t k = some (t, false) := by
  rw [remove, remove_children_absent fuel h]
  simp [h]

/-! ## The `remove` specification -/

/-- Rebuild the invariant for the state after `remove`: every record of the
new state maps back to an old record with the same parent and the same
children apart from `k`, and survivors keep their records. -/
theorem remove_rebuild {t t' : MappedTree T} {rank : T → Nat} {N : Nat} {k : T}
    {lk : Links T} (hg : Good t rank N) (hk : t.links k = some lk)
    (hnd' : (keysOf t').Nodup) (hsize' : t'.size = (keysOf t').length)
    (hbk : ∀ y ly', t'.links y = some ly' → y ≠ k ∧ ¬ Desc t k y ∧
      ∃ m, t.links y = some m ∧ m.parent = ly'.parent ∧
        (∀ c ∈ ly'.children, c ∈ m.children) ∧
        (∀ c ∈ m.children, c ≠ k → c ∈ ly'.children) ∧
        k ∉ ly'.children ∧ ly'.children.Nodup)
    (hpres : ∀ y m, t.links y = some m → y ≠ k → ¬ Desc t k y →
      ∃ ly', t'.links y = some ly') :
    Good t' rank N := by
  refine ⟨WFcore.of_links hnd' hsize' ?_ ?_ ?_ ?_, ?_, ?_⟩
  · intro y ly p hy hp
    obtain ⟨hyk, hyd, m, hm, hmp, hsub1, hsub2, hknot, hlnd⟩ := hbk y ly hy
    have hmp' : m.parent = some p := hmp.trans hp
    obtain ⟨lp, hlp, hyin⟩ := hg.wf.parent_in hm hmp'
    have hpk : p ≠ k := by
      rintro rfl
      rw [hk] at hlp
      obtain rfl := Option.some_inj.mp hlp
      exact hyd (Desc.child (by rw [childrenOf_eq hk]; exact hyin))
    have hpd : ¬ Desc t k p := fun h =>
      hyd (h.trans (Desc.child (by rw [childrenOf_eq hlp]; exact hyin)))
    obtain ⟨lp', hlp'⟩ := hpres p lp hlp hpk hpd
    obtain ⟨_, _, mp, hmp2, hmpp, hs1, hs2, hknp, _⟩ := hbk p lp' hlp'
    rw [hlp] at hmp2
    obtain rfl := Option.some_inj.mp hmp2
    exact ⟨lp', hlp', hs2 y hyin hyk⟩
  · intro y ly c hy hc
    obtain ⟨hyk, hyd, m, hm, hmp, hsub1, hsub2, hknot, hlnd⟩ := hbk y ly hy
    have hcm : c ∈ m.children := hsub1 c hc
    obtain ⟨lc, hlc, hcp⟩ := hg.wf.child_parent hm hcm
    have hck : c ≠ k := fun h => hknot (h ▸ hc)
    have hcd : ¬ Desc t k c := by
      intro hdc
      rcases hdc.parent_decomp hg.wf ((parent_eq_some_iff ..).mpr ⟨lc, hlc, hcp⟩)
        with rfl | hdy
      · exact hyk rfl
      · exact hyd hdy
    obtain ⟨lc', hlc'⟩ := hpres c lc hlc hck hcd
    obtain ⟨_, _, mc, hmc, hmcp, _, _, _, _⟩ := hbk c lc' hlc'
    rw [hlc] at hmc
    obtain rfl := Option.some_inj.mp hmc
    exact ⟨lc', hlc', by rw [← hmcp]; exact hcp⟩
  · intro y ly hy
    obtain ⟨_, _, m, hm, hmp, _, _, _, hlnd⟩ := hbk y ly hy
    exact hlnd
  · intro y1 l1 y2 l2 h1 h2 hp1 hp2
    obtain ⟨_, _, m1, hm1, he1, _⟩ := hbk y1 l1 h1
    obtain ⟨_, _, m2, hm2, he2, _⟩ := hbk y2 l2 h2
    exact hg.wf.one_root hm1 hm2 (he1.trans hp1) (he2.trans hp2)
  · refine Canon.of_agree hnd' ?_
    intro y ly hy
    obtain ⟨_, _, m, hm, he, _⟩ := hbk y ly hy
    rw [← he]
    exact hg.canon.links_eq hm
  · intro y hy
    obtain ⟨ly, hly⟩ := links_isSome_of_mem_keys hy
    obtain ⟨_, _, m, hm, _⟩ := hbk y ly hly
    exact hg.bound hm

/-- Full specification of `remove fuel` on a well-formed state and a
present key: it returns `true`, keeps the invariant, and removes exactly
`k` and its proper descendants. -/
theorem remove_spec {rank : T → Nat} {N : Nat} (fuel : Nat) (t : MappedTree T) (k : T)
    (lk : Links T) (hg : Good t rank N) (hk : t.links k = some lk)
    (hfuel : N ≤ fuel + rank k) :
    ∃ t', remove fuel t k = some (t', true) ∧ Good t' rank N ∧
      t'.links k = none ∧ (∀ y, Desc t k y → t'.links y = none) := by
  obtain ⟨t1, hrc, hg1, hck, hdesc1, hunch1⟩ := rc_spec fuel t k lk hg hk hfuel
  have hkdesc : ¬ Desc t k k := fun h => Desc.irrefl hg.wf hg.canon h
  have hk1mem : k ∈ keysOf t1 := mem_keys_of_links hck
  have hT2 : ∀ y, (⟨mapRemove k t1.links_by_obj, t1.size - 1⟩ : MappedTree T).links y =
      if y = k then none else t1.links y := by
    intro y
    by_cases hyk : y = k
    · subst hyk
      show mapGet y (mapRemove y t1.links_by_obj) = _
      rw [mapGet_remove_self, if_pos rfl]
    · show mapGet y (mapRemove k t1.links_by_obj) = _
      rw [mapGet_remove_ne k y (fun h => hyk h.symm), if_neg hyk]
      rfl
  have hnd2 : ((mapRemove k t1.links_by_obj).map Prod.fst).Nodup :=
    ((mapRemove_sublist ..).map Prod.fst).nodup hg1.wf.keys_nodup
  have hsize2 : t1.size - 1 = ((mapRemove k t1.links_by_obj).map Prod.fst).length := by
    have h1 := keys_remove_length k t1.links_by_obj hg1.wf.keys_nodup
      (by unfold keysOf at hk1mem; exact hk1mem)
    have h2 := hg1.wf.size_eq
    unfold keysOf at h2
    simp only [List.length_map] at *
    omega
  cases hp : lk.parent with
  | none =>
    refine ⟨⟨mapRemove k t1.links_by_obj, t1.size - 1⟩, ?_, ?_, ?_, ?_⟩
    · simp only [remove, hrc, hck, hp]
    · refine remove_rebuild hg hk hnd2 hsize2 ?_ ?_
      · intro y ly' hy
        rw [hT2 y] at hy
        by_cases hyk : y = k
        · rw [if_pos hyk] at hy
          simp at hy
        · rw [if_neg hyk] at hy
          by_cases hyd : Desc t k y
          · rw [hdesc1 y hyd] at hy
            simp at hy
          · rw [hunch1 y hyk hyd] at hy
            refine ⟨hyk, hyd, ly', hy, rfl, fun c hc => hc, fun c hc _ => hc, ?_,
              hg.wf.children_nodup hy⟩
            intro hkin
            obtain ⟨lkk, hlkk, hpkk⟩ := hg.wf.child_parent hy hkin
            rw [hk] at hlkk
            obtain rfl := Option.some_inj.mp hlkk
            rw [hp] at hpkk
            cases hpkk
      · intro y m hm hyk hyd
        refine ⟨m, ?_⟩
        rw [hT2 y, if_neg hyk, hunch1 y hyk hyd]
        exact hm
    · rw [hT2 k, if_pos rfl]
    · intro y hd
      have hyk : y ≠ k := fun h => hkdesc (h ▸ hd)
      rw [hT2 y, if_neg hyk]
      exact hdesc1 y hd
  | some p =>
    obtain ⟨lp, hlp, hkin⟩ := hg.wf.parent_in hk hp
    have hrkp := hg.canon.rank_parent hk hp
    have hpne : p ≠ k := by
      rintro rfl
      omega
    have hpd : ¬ Desc t k p := fun h => by
      have := h.rank_increase hg.wf hg.canon
      omega
    have hp1 : t1.links p = some lp := by
      rw [hunch1 p hpne hpd]
      exact hlp
    have hp2 : (⟨mapRemove k t1.links_by_obj, t1.size - 1⟩ : MappedTree T).links p
        = some lp := by
      rw [hT2 p, if_neg hpne]
      exact hp1
    obtain ⟨i, hpos⟩ := Option.isSome_iff_exists.mp (position_isSome_of_mem hkin)
    obtain ⟨hsmem, hsnd⟩ := swapRemove_position_mem (hg.wf.children_nodup hlp) hpos
    have hT3 : ∀ y,
        (⟨mapAdjust p (fun l => ⟨l.parent, swapRemove l.children i⟩)
            (mapRemove k t1.links_by_obj), t1.size - 1⟩ : MappedTree T).links y =
          if y = p then some ⟨lp.parent, swapRemove lp.children i⟩
          else if y = k then none else t1.links y := by
      intro y
      by_cases hyp : y = p
      · subst hyp
        rw [if_pos rfl]
        show mapGet y (mapAdjust y _ (mapRemove k t1.links_by_obj)) = _
        rw [mapGet_adjust_self,
          show mapGet y (mapRemove k t1.links_by_obj) = some lp from hp2]
        rfl
      · rw [if_neg hyp]
        show mapGet y (mapAdjust p _ (mapRemove k t1.links_by_obj)) = _
        rw [mapGet_adjust_ne p y (fun h => hyp h.symm)]
        by_cases hyk : y = k
        · subst hyk
          rw [mapGet_remove_self, if_pos rfl]
        · rw [mapGet_remove_ne k y (fun h => hyk h.symm), if_neg hyk]
          rfl
    have hkeys3 : (mapAdjust p (fun l => ⟨l.parent, swapRemove l.children i⟩)
        (mapRemove k t1.links_by_obj)).map Prod.fst
        = (mapRemove k t1.links_by_obj).map Prod.fst := keys_adjust ..
    refine ⟨⟨mapAdjust p (fun l => ⟨l.parent, swapRemove l.children i⟩)
        (mapRemove k t1.links_by_obj), t1.size - 1⟩, ?_, ?_, ?_, ?_⟩
    · simp only [remove, hrc, hck, hp, hp2, hpos]
    · refine remove_rebuild hg hk ?_ ?_ ?_ ?_
      · show ((mapAdjust p _ (mapRemove k t1.links_by_obj)).map Prod.fst).Nodup
        rw [hkeys3]
        exact hnd2
      · show t1.size - 1 = ((mapAdjust p _ (mapRemove k t1.links_by_obj)).map Prod.fst).length
        rw [hkeys3]
        exact hsize2
      · intro y ly' hy
        rw [hT3 y] at hy
        by_cases hyp : y = p
        · rw [if_pos hyp] at hy
          obtain rfl := Option.some_inj.mp hy
          subst hyp
          refine ⟨hpne, hpd, lp, hlp, rfl, ?_, ?_, ?_, hsnd⟩
          · intro c hc
            exact ((hsmem c).mp hc).1
          · intro c hc hck2
            exact (hsmem c).mpr ⟨hc, hck2⟩
          · intro hkin2
            exact ((hsmem k).mp hkin2).2 rfl
        · rw [if_neg hyp] at hy
          by_cases hyk : y = k
          · rw [if_pos hyk] at hy
            simp at hy
          · rw [if_neg hyk] at hy
            by_cases hyd : Desc t k y
            · rw [hdesc1 y hyd] at hy
              simp at hy
            · rw [hunch1 y hyk hyd] at hy
              refine ⟨hyk, hyd, ly', hy, rfl, fun c hc => hc, fun c hc _ => hc, ?_,
                hg.wf.children_nodup hy⟩
              intro hkin2
              obtain ⟨lkk, hlkk, hpkk⟩ := hg.wf.child_parent hy hkin2
              rw [hk] at hlkk
              obtain rfl := Option.some_inj.mp hlkk
              rw [hp] at hpkk
              obtain rfl := Option.some_inj.mp hpkk
              exact hyp rfl
      · intro y m hm hyk hyd
        by_cases hyp : y = p
        · subst hyp
          exact ⟨⟨lp.parent, swapRemove lp.children i⟩, by rw [hT3 y, if_pos rfl]⟩
        · refine ⟨m, ?_⟩
          rw [hT3 y, if_neg hyp, if_neg hyk, hunch1 y hyk hyd]
          exact hm
    · rw [hT3 k, if_neg (fun h => hpne h.symm), if_pos rfl]
    · intro y hd
      have hyk : y ≠ k := fun h => hkdesc (h ▸ hd)
      have hyp : y ≠ p := fun h => hpd (h ▸ hd)
      rw [hT3 y, if_neg hyp, if_neg hyk]
      exact hdesc1 y hd

/-! ## The `insert` specification -/

theorem insert_dup {t : MappedTree T} (obj par : T) (h : (t.links obj).isSome) :
    insert t obj par = .error .duplicateKey := by
  unfold links at h
  rw [insert, if_pos h]

theorem insert_missing {t : MappedTree T} {obj par : T} (h1 : t.links obj = none)
    (h2 : t.links par = none) : insert t obj par = .error .missingParent := by
  unfold links at h1 h2
  rw [insert, if_neg (by simp [h1])]
  rw [h2]

theorem insert_ok {t : MappedTree T} {obj par : T} {lp : Links T}
    (h1 : t.links obj = none) (hlp : t.links par = some lp) :
    insert t obj par =
      .ok ⟨mapInsert obj ⟨some par, []⟩
            (mapAdjust par (fun l => ⟨l.parent, l.children ++ [obj]⟩) t.links_by_obj),
          t.size + 1⟩ := by
  unfold links at h1 hlp
  rw [insert, if_neg (by simp [h1])]
  rw [hlp]

theorem mapInsert_eq_append (k : T) (v : Links T) (l : List (T × Links T))
    (h : mapGet k l = none) : mapInsert k v l = l ++ [(k, v)] := by
  rw [mapInsert, if_neg (by simp [h])]

/-- The link table after a successful `insert`. -/
theorem insert_links_char {t : MappedTree T} {obj par : T} {lp : Links T}
    (h1 : t.links obj = none) (hlp : t.links par = some lp) :
    ∀ y, (⟨mapInsert obj ⟨some par, []⟩
        (mapAdjust par (fun l => ⟨l.parent, l.children ++ [obj]⟩) t.links_by_obj),
      t.size + 1⟩ : MappedTree T).links y =
      if y = obj then some ⟨some par, []⟩
      else if y = par then some ⟨lp.parent, lp.children ++ [obj]⟩
      else t.links y := by
  intro y
  show mapGet y (mapInsert obj _ (mapAdjust par _ t.links_by_obj)) = _
  by_cases hyo : y = obj
  · subst hyo
    rw [if_pos rfl, mapGet_insert_self]
  · rw [if_neg hyo, mapGet_insert_ne obj y (fun h => hyo h.symm)]
    by_cases hyp : y = par
    · subst hyp
      rw [if_pos rfl, mapGet_adjust_self]
      unfold links at hlp
      rw [hlp]
      rfl
    · rw [if_neg hyp, mapGet_adjust_ne par y (fun h => hyp h.symm)]
      rfl

/-- A successful `insert` preserves the invariant. -/
theorem insert_wf {t t' : MappedTree T} {obj par : T} (hwf : WF t)
    (h : insert t obj par = .ok t') : WF t' := by
  obtain ⟨hcore, rank, hcn⟩ := hwf
  have h1 : t.links obj = none := by
    cases ho : t.links obj with
    | none => rfl
    | some lo =>
      rw [insert_dup obj par (by simp [ho])] at h
      simp at h
  obtain ⟨lp, hlp⟩ : ∃ lp, t.links par = some lp := by
    cases hpo : t.links par with
    | some lp => exact ⟨lp, rfl⟩
    | none =>
      rw [insert_missing h1 hpo] at h
      simp at h
  rw [insert_ok h1 hlp] at h
  simp only [Except.ok.injEq] at h
  subst h
  have hchar := insert_links_char h1 hlp
  have hop : obj ≠ par := by
    rintro rfl
    rw [h1] at hlp
    cases hlp
  have hnotobj : ∀ z lz, t.links z = some lz → z ≠ obj := by
    intro z lz hz he
    rw [he, h1] at hz
    cases hz
  have hparpar : lp.parent ≠ some par := fun hpp => by
    have := hcn.rank_parent hlp hpp
    omega
  have hparchild : par ∉ lp.children := by
    intro hm
    obtain ⟨lc, hlc, hcp⟩ := hcore.child_parent hlp hm
    rw [hlp] at hlc
    obtain rfl := Option.some_inj.mp hlc
    exact hparpar hcp
  have hobjchild : obj ∉ lp.children := by
    intro hm
    obtain ⟨lc, hlc, _⟩ := hcore.child_parent hlp hm
    exact hnotobj obj lc hlc rfl
  have hobjnot : obj ∉ keysOf t := by
    intro hm
    obtain ⟨lo, hlo⟩ := links_isSome_of_mem_keys hm
    rw [h1] at hlo
    cases hlo
  have hkeyseq : (mapInsert obj (⟨some par, []⟩ : Links T)
      (mapAdjust par (fun l => ⟨l.parent, l.children ++ [obj]⟩)
        t.links_by_obj)).map Prod.fst = keysOf t ++ [obj] := by
    rw [mapInsert_eq_append _ _ _ (by
      rw [mapGet_adjust_ne par obj hop.symm]
      unfold links at h1
      exact h1)]
    simp [keysOf, keys_adjust]
  have hnd' : ((mapInsert obj (⟨some par, []⟩ : Links T)
      (mapAdjust par (fun l => ⟨l.parent, l.children ++ [obj]⟩)
        t.links_by_obj)).map Prod.fst).Nodup := by
    rw [hkeyseq]
    refine List.Nodup.append hcore.keys_nodup (by simp) ?_
    intro a ha hb
    simp at hb
    subst hb
    exact hobjnot ha
  refine ⟨WFcore.of_links hnd' ?_ ?_ ?_ ?_ ?_, ?_⟩
  · simp only [keysOf]
    rw [hkeyseq]
    simp only [List.length_append, List.length_singleton]
    rw [hcore.size_eq]
  · -- parent_in
    intro y ly p hy hp
    rw [hchar y] at hy
    by_cases hyo : y = obj
    · rw [if_pos hyo] at hy
      obtain rfl := Option.some_inj.mp hy
      obtain rfl := Option.some_inj.mp hp
      refine ⟨⟨lp.parent, lp.children ++ [obj]⟩, ?_, by simp [hyo]⟩
      rw [hchar par, if_neg (fun hh => hop hh.symm), if_pos rfl]
    · rw [if_neg hyo] at hy
      by_cases hyp : y = par
      · rw [if_pos hyp] at hy
        obtain rfl := Option.some_inj.mp hy
        have hpp : lp.parent = some p := hp
        obtain ⟨lq, hlq, hmem⟩ := hcore.parent_in hlp hpp
        have hpo : p ≠ obj := hnotobj p lq hlq
        have hppar : p ≠ par := by
          rintro rfl
          exact hparpar hpp
        refine ⟨lq, ?_, by rw [hyp]; exact hmem⟩
        rw [hchar p, if_neg hpo, if_neg hppar]
        exact hlq
      · rw [if_neg hyp] at hy
        obtain ⟨lq, hlq, hmem⟩ := hcore.parent_in hy hp
        have hpo : p ≠ obj := hnotobj p lq hlq
        by_cases hppar : p = par
        · rw [hppar, hlp] at hlq
          obtain rfl := Option.some_inj.mp hlq
          refine ⟨⟨lp.parent, lp.children ++ [obj]⟩, ?_, List.mem_append_left _ hmem⟩
          rw [hchar p, if_neg hpo, if_pos hppar]
        · refine ⟨lq, ?_, hmem⟩
          rw [hchar p, if_neg hpo, if_neg hppar]
          exact hlq
  · -- child_parent
    intro y ly c hy hc
    rw [hchar y] at hy
    by_cases hyo : y = obj
    · rw [if_pos hyo] at hy
      obtain rfl := Option.some_inj.mp hy
      simp at hc
    · rw [if_neg hyo] at hy
      by_cases hyp : y = par
      · rw [if_pos hyp] at hy
        obtain rfl := Option.some_inj.mp hy
        rcases List.mem_append.mp hc with hc | hc
        · obtain ⟨lc, hlc, hcp⟩ := hcore.child_parent hlp hc
          have hco : c ≠ obj := hnotobj c lc hlc
          have hcpar : c ≠ par := by
            rintro rfl
            exact hparchild hc
          refine ⟨lc, ?_, by rw [hyp]; exact hcp⟩
          rw [hchar c, if_neg hco, if_neg hcpar]
          exact hlc
        · simp at hc
          exact ⟨⟨some par, []⟩, by rw [hchar c, if_pos hc], by rw [hyp]⟩
      · rw [if_neg hyp] at hy
        obtain ⟨lc, hlc, hcp⟩ := hcore.child_parent hy hc
        have hco : c ≠ obj := hnotobj c lc hlc
        by_cases hcpar : c = par
        · rw [hcpar, hlp] at hlc
          obtain rfl := Option.some_inj.mp hlc
          exact ⟨⟨lp.parent, lp.children ++ [obj]⟩,
            by rw [hchar c, if_neg hco, if_pos hcpar], hcp⟩
        · refine ⟨lc, ?_, hcp⟩
          rw [hchar c, if_neg hco, if_neg hcpar]
          exact hlc
  · -- children lists stay duplicate free
    intro y ly hy
    rw [hchar y] at hy
    by_cases hyo : y = obj
    · rw [if_pos hyo] at hy
      obtain rfl := Option.some_inj.mp hy
      simp
    · rw [if_neg hyo] at hy
      by_cases hyp : y = par
      · rw [if_pos hyp] at hy
        obtain rfl := Option.some_inj.mp hy
        simp only []
        refine List.Nodup.append (hcore.children_nodup hlp) (by simp) ?_
        intro a ha hb
        simp at hb
        subst hb
        exact hobjchild ha
      · rw [if_neg hyp] at hy
        exact hcore.children_nodup hy
  · -- one root
    intro y1 l1 y2 l2 hy1 hy2 hp1 hp2
    rw [hchar y1] at hy1
    rw [hchar y2] at hy2
    have hone : ∀ y l, (if y = obj then some (⟨some par, []⟩ : Links T)
        else if y = par then some ⟨lp.parent, lp.children ++ [obj]⟩
        else t.links y) = some l → l.parent = none → t.links y = some l ∨
          (y = par ∧ l.parent = lp.parent) := by
      intro y l hl hpl
      by_cases hyo : y = obj
      · rw [if_pos hyo] at hl
        obtain rfl := Option.some_inj.mp hl
        cases hpl
      · rw [if_neg hyo] at hl
        by_cases hyp : y = par
        · rw [if_pos hyp] at hl
          obtain rfl := Option.some_inj.mp hl
          exact Or.inr ⟨hyp, rfl⟩
        · rw [if_neg hyp] at hl
          exact Or.inl hl
    have hred : ∀ y l, (if y = obj then some (⟨some par, []⟩ : Links T)
        else if y = par then some ⟨lp.parent, lp.children ++ [obj]⟩
        else t.links y) = some l → l.parent = none →
          ∃ m, t.links y = some m ∧ m.parent = none := by
      intro y l hl hpl
      rcases hone y l hl hpl with hl' | ⟨rfl, he⟩
      · exact ⟨l, hl', hpl⟩
      · exact ⟨lp, hlp, by rw [← he]; exact hpl⟩
    obtain ⟨m1, hm1, hq1⟩ := hred y1 l1 hy1 hp1
    obtain ⟨m2, hm2, hq2⟩ := hred y2 l2 hy2 hp2
    exact hcore.one_root hm1 hm2 hq1 hq2
  · -- depth function
    refine ⟨fun y => if y = obj then rank par + 1 else rank y, Canon.of_agree hnd' ?_⟩
    intro y ly hy
    rw [hchar y] at hy
    by_cases hyo : y = obj
    · rw [if_pos hyo] at hy
      obtain rfl := Option.some_inj.mp hy
      have hpo : ¬ par = obj := fun hh => hop hh.symm
      simp [hyo, hpo]
    · rw [if_neg hyo] at hy
      by_cases hyp : y = par
      · rw [if_pos hyp] at hy
        obtain rfl := Option.some_inj.mp hy
        have hthis := hcn.links_eq hlp
        have hpo : ¬ par = obj := fun hh => hop hh.symm
        cases hq : lp.parent with
        | none =>
          simp [hq] at hthis
          simp [hq, hyo, hyp, hpo, hthis]
        | some q =>
          obtain ⟨lq, hlq, _⟩ := hcore.parent_in hlp hq
          have hqo : ¬ q = obj := hnotobj q lq hlq
          simp [hq, hqo] at hthis ⊢
          simp [hyo, hyp, hpo, hthis]
      · rw [if_neg hyp] at hy
        have hthis := hcn.links_eq hy
        cases hq : ly.parent with
        | none =>
          simp [hq] at hthis
          simp [hq, hyo, hthis]
        | some q =>
          obtain ⟨lq, hlq, _⟩ := hcore.parent_in hy hq
          have hqo : ¬ q = obj := hnotobj q lq hlq
          simp [hq, hqo] at hthis ⊢
          simp [hyo, hthis]

/-! ## The `reset_root` specification -/

/-- The reparenting loop of `reset_root` succeeds on present keys and sets
exactly their parent fields. -/
theorem reparentAll_spec (x : T) : ∀ (cs : List T) (t : MappedTree T),
    (∀ c ∈ cs, (t.links c).isSome) → cs.Nodup →
    ∃ t1, reparentAll x cs t = some t1 ∧ t1.size = t.size ∧
      t1.links_by_obj.map Prod.fst = t.links_by_obj.map Prod.fst ∧
      ∀ y, t1.links y =
        if y ∈ cs then (t.links y).map (fun l => ⟨some x, l.children⟩) else t.links y := by
  intro cs
  induction cs with
  | nil =>
    intro t _ _
    exact ⟨t, rfl, rfl, rfl, fun y => by simp⟩
  | cons c cs ih =>
    intro t hsome hnd
    obtain ⟨lc, hlc⟩ := Option.isSome_iff_exists.mp (hsome c (List.mem_cons_self ..))
    have hcnot : c ∉ cs := (List.nodup_cons.mp hnd).1
    have hstep : ∀ y, (⟨mapAdjust c (fun l => ⟨some x, l.children⟩) t.links_by_obj,
        t.size⟩ : MappedTree T).links y =
        if y = c then (t.links y).map (fun l => ⟨some x, l.children⟩) else t.links y := by
      intro y
      by_cases hyc : y = c
      · subst hyc
        rw [if_pos rfl]
        exact mapGet_adjust_self ..
      · rw [if_neg hyc]
        exact mapGet_adjust_ne c y (fun h => hyc h.symm) ..
    obtain ⟨t1, hrun, hsz, hkeys, hchar⟩ := ih
      ⟨mapAdjust c (fun l => ⟨some x, l.children⟩) t.links_by_obj, t.size⟩
      (by
        intro c' hc'
        rw [hstep c', if_neg (fun h => hcnot (by rw [← h]; exact hc'))]
        exact hsome c' (List.mem_cons_of_mem _ hc'))
      (List.nodup_cons.mp hnd).2
    refine ⟨t1, ?_, hsz, ?_, ?_⟩
    · rw [reparentAll, show t.links c = some lc from hlc]
      exact hrun
    · rw [hkeys]
      exact keys_adjust ..
    · intro y
      rw [hchar y]
      by_cases hyc : y = c
      · rw [if_neg (fun h => hcnot (hyc ▸ h)), hstep y, if_pos hyc,
          if_pos (by rw [hyc]; exact List.mem_cons_self ..)]
      · by_cases hycs : y ∈ cs
        · rw [if_pos hycs, if_pos (List.mem_cons_of_mem _ hycs), hstep y, if_neg hyc]
        · rw [if_neg hycs, if_neg (by
            intro hmem
            rcases List.mem_cons.mp hmem with h | h
            · exact hyc h
            · exact hycs h), hstep y, if_neg hyc]

/-- Full characterisation of `reset_root` on a well-formed non-empty tree:
the walk finds the root `r`, `r`'s record is removed, `x` becomes a
parentless record holding `r`'s former children, those children are
reparented to `x`, everything else is untouched, and `r` is returned. -/
theorem reset_root_nonempty_spec {t : MappedTree T} {rank : T → Nat} (hwf : WFcore t)
    (hc : Canon t rank) {r : T} (hr : root t = some r) (x : T) :
    ∃ lr, t.links r = some lr ∧ lr.parent = none ∧
    ∃ (t1 t' : MappedTree T), reset_root t x = some (t', some r) ∧ t'.size = t.size ∧
      t1.links_by_obj.map Prod.fst = t.links_by_obj.map Prod.fst ∧
      t'.links_by_obj = mapInsert x ⟨none, lr.children⟩ (mapRemove r t1.links_by_obj) ∧
      (∀ y, t'.links y =
        if y = x then some ⟨none, lr.children⟩
        else if y = r then none
        else if y ∈ lr.children then (t.links y).map (fun l => ⟨some x, l.children⟩)
        else t.links y) := by
  cases hl : t.links_by_obj with
  | nil => unfold root at hr; rw [hl] at hr; cases hr
  | cons hd rest =>
    obtain ⟨k0, l0⟩ := hd
    have hhd : t.links k0 = some l0 := by
      unfold links
      rw [hl, mapGet, if_pos rfl]
    have hrf : rootFrom t t.fuelOf k0 = some r := by
      unfold root at hr
      rw [hl] at hr
      exact hr
    obtain ⟨lr, hlr⟩ := rootFrom_present hwf t.fuelOf hhd hrf
    have hpn : t.parent r = none := rootFrom_parent_none t.fuelOf hrf
    have hlrp : lr.parent = none := by
      unfold parent at hpn
      rw [hlr] at hpn
      simpa using hpn
    have hcs_some : ∀ c ∈ lr.children, (t.links c).isSome := by
      intro c hcm
      obtain ⟨lc, hlc, _⟩ := hwf.child_parent hlr hcm
      simp [hlc]
    obtain ⟨t1, hrun, hsz, hkeys, hchar⟩ :=
      reparentAll_spec x lr.children t hcs_some (hwf.children_nodup hlr)
    refine ⟨lr, hlr, hlrp, t1,
      ⟨mapInsert x ⟨none, lr.children⟩ (mapRemove r t1.links_by_obj), t1.size⟩,
      ?_, hsz, by rw [hkeys, hl], rfl, ?_⟩
    · unfold reset_root
      rw [hl]
      simp only [hrf, children_eq_some hlr, hrun]
    · intro y
      by_cases hyx : y = x
      · subst hyx
        rw [if_pos rfl]
        exact mapGet_insert_self ..
      · rw [if_neg hyx]
        show mapGet y (mapInsert x _ (mapRemove r t1.links_by_obj)) = _
        rw [mapGet_insert_ne x y (fun h => hyx h.symm)]
        by_cases hyr : y = r
        · subst hyr
          rw [if_pos rfl, mapGet_remove_self]
        · rw [if_neg hyr, mapGet_remove_ne r y (fun h => hyr h.symm)]
          exact hchar y

/-- `reset_root` on an empty tree initialises it with the given key. -/
theorem reset_root_empty {t : MappedTree T} (hl : t.links_by_obj = []) (x : T) :
    reset_root t x = some (⟨[(x, ⟨none, []⟩)], t.size + 1⟩, none) := by
  unfold reset_root
  rw [hl]
  rfl

/-- `reset_root` preserves the invariant provided its argument is absent or
already parentless (the current root). -/
theorem reset_root_wf {t t' : MappedTree T} {x : T} {ret : Option T} (hwf : WF t)
    (hguard : t.contains x = true → t.parent x = none)
    (h : reset_root t x = some (t', ret)) : WF t' := by
  obtain ⟨hcore, rank, hcn⟩ := hwf
  cases hl : t.links_by_obj with
  | nil =>
    rw [reset_root_empty hl x] at h
    simp only [Option.some_inj, Prod.mk.injEq] at h
    obtain ⟨h1', h2'⟩ := h
    subst h1'
    subst h2'
    have hsz : t.size = 0 := by
      rw [hcore.size_eq]
      unfold keysOf
      rw [hl]
      rfl
    refine ⟨⟨?_, ?_, ?_, ?_, ?_, ?_⟩, fun _ => 0, ?_⟩
    · simp [keysOf]
    · simp [keysOf, hsz]
    · rintro ⟨k, lk⟩ hmem p hp
      simp only [List.mem_singleton, Prod.mk.injEq] at hmem
      obtain ⟨rfl, rfl⟩ := hmem
      simp at hp
    · rintro ⟨k, lk⟩ hmem c hcm
      simp only [List.mem_singleton, Prod.mk.injEq] at hmem
      obtain ⟨rfl, rfl⟩ := hmem
      simp at hcm
    · rintro ⟨k, lk⟩ hmem
      simp only [List.mem_singleton, Prod.mk.injEq] at hmem
      obtain ⟨rfl, rfl⟩ := hmem
      simp
    · rintro ⟨k1, l1⟩ hm1 ⟨k2, l2⟩ hm2 _ _
      simp only [List.mem_singleton, Prod.mk.injEq] at hm1 hm2
      rw [hm1.1, hm2.1]
    · rintro ⟨k, lk⟩ hmem
      simp only [List.mem_singleton, Prod.mk.injEq] at hmem
      obtain ⟨rfl, rfl⟩ := hmem
      simp
  | cons hd rest =>
    have hne : t.links_by_obj ≠ [] := by rw [hl]; simp
    obtain ⟨r, lr0, hroot, _, _⟩ := root_spec hcore hcn hne
    obtain ⟨lr, hlr, hlrp, t1, t'', heq, hsz, ht1keys, hstruct, hchar⟩ :=
      reset_root_nonempty_spec hcore hcn hroot x
    rw [heq] at h
    simp only [Option.some_inj, Prod.mk.injEq] at h
    obtain ⟨rfl, rfl⟩ := h
    -- the guard forces x to be fresh or the current root
    have hxcases : t.links x = none ∨ x = r := by
      cases ho : t.links x with
      | none => exact Or.inl rfl
      | some lx =>
        right
        have hcx : t.contains x = true := by
          rw [contains, ho]
          rfl
        have hpx := hguard hcx
        have hlxp : lx.parent = none := by
          unfold parent at hpx
          rw [ho] at hpx
          simpa using hpx
        exact hcore.one_root ho hlr hlxp hlrp
    have hrnotin : r ∉ lr.children := by
      intro hm
      obtain ⟨lc, hlc, hcp⟩ := hcore.child_parent hlr hm
      rw [hlr] at hlc
      obtain rfl := Option.some_inj.mp hlc
      rw [hlrp] at hcp
      cases hcp
    have hxnotin : x ∉ lr.children := by
      intro hm
      obtain ⟨lc, hlc, hcp⟩ := hcore.child_parent hlr hm
      rcases hxcases with hx | rfl
      · rw [hx] at hlc
        cases hlc
      · exact hrnotin hm
    have hrrank : rank r = 0 := hcn.rank_root hlr hlrp
    have hcs : ∀ c ∈ lr.children, ∃ lc, t.links c = some lc ∧ lc.parent = some r :=
      fun c hcm => hcore.child_parent hlr hcm
    -- key list facts
    have hrmem1 : r ∈ t1.links_by_obj.map Prod.fst := by
      rw [ht1keys]
      exact mem_keys_of_links hlr
    have hnd1 : (t1.links_by_obj.map Prod.fst).Nodup := by
      rw [ht1keys]
      exact hcore.keys_nodup
    have hxnotrm : mapGet x (mapRemove r t1.links_by_obj) = none := by
      rcases hxcases with hx | rfl
      · have : x ∉ (mapRemove r t1.links_by_obj).map Prod.fst := by
          intro hm
          have := ((mapRemove_sublist r t1.links_by_obj).map Prod.fst).subset hm
          rw [ht1keys] at this
          obtain ⟨lz, hlz⟩ := links_isSome_of_mem_keys this
          rw [hx] at hlz
          cases hlz
        exact mapGet_eq_none_of_not_mem _ _ this
      · exact mapGet_remove_self ..
    have hkeys' : t''.links_by_obj.map Prod.fst
        = (mapRemove r t1.links_by_obj).map Prod.fst ++ [x] := by
      rw [hstruct, mapInsert_eq_append _ _ _ hxnotrm]
      simp
    have hnd' : (keysOf t'').Nodup := by
      unfold keysOf
      rw [hkeys']
      refine List.Nodup.append (((mapRemove_sublist ..).map Prod.fst).nodup hnd1)
        (by simp) ?_
      intro a ha hb
      simp at hb
      subst hb
      have hsome := (mapGet_isSome_iff_mem a (mapRemove r t1.links_by_obj)).mpr ha
      rw [hxnotrm] at hsome
      simp at hsome
    have hsize' : t''.size = (keysOf t'').length := by
      unfold keysOf
      rw [hkeys', hsz]
      have h1 := keys_remove_length r t1.links_by_obj hnd1 hrmem1
      have h2 := congrArg List.length ht1keys
      have h3 := hcore.size_eq
      unfold keysOf at h3
      simp only [List.length_map, List.length_append, List.length_singleton] at *
      omega
    have hqnex : ∀ z lz, t.links z = some lz → z ≠ r → z ≠ x := by
      intro z lz hz hzr he
      rcases hxcases with hx | heq
      · rw [he, hx] at hz
        cases hz
      · rw [he] at hzr
        exact hzr heq
    have hmapinv : ∀ y ly,
        (t.links y).map (fun l => (⟨some x, l.children⟩ : Links T)) = some ly →
        ∃ ly0, t.links y = some ly0 ∧ ly = ⟨some x, ly0.children⟩ := by
      intro y ly hy
      cases ho : t.links y with
      | none => rw [ho] at hy; cases hy
      | some ly0 =>
        rw [ho] at hy
        exact ⟨ly0, rfl, (Option.some_inj.mp hy).symm⟩
    refine ⟨WFcore.of_links hnd' hsize' ?_ ?_ ?_ ?_, ?_⟩
    · -- parent_in
      intro y ly p hy hp
      rw [hchar y] at hy
      by_cases hyx : y = x
      · rw [if_pos hyx] at hy
        obtain rfl := Option.some_inj.mp hy
        simp at hp
      · rw [if_neg hyx] at hy
        by_cases hyr : y = r
        · rw [if_pos hyr] at hy
          cases hy
        · rw [if_neg hyr] at hy
          by_cases hycs : y ∈ lr.children
          · rw [if_pos hycs] at hy
            obtain ⟨ly0, hly0, hmap⟩ := hmapinv y ly hy
            rw [hmap] at hp
            obtain rfl := Option.some_inj.mp hp
            refine ⟨⟨none, lr.children⟩, ?_, hycs⟩
            rw [hchar x, if_pos rfl]
          · rw [if_neg hycs] at hy
            obtain ⟨lq, hlq, hmem⟩ := hcore.parent_in hy hp
            have hpr : p ≠ r := by
              rintro rfl
              rw [hlr] at hlq
              obtain rfl := Option.some_inj.mp hlq
              exact hycs hmem
            have hpx : p ≠ x := hqnex p lq hlq hpr
            by_cases hpcs : p ∈ lr.children
            · refine ⟨⟨some x, lq.children⟩, ?_, hmem⟩
              rw [hchar p, if_neg hpx, if_neg hpr, if_pos hpcs, hlq]
              rfl
            · refine ⟨lq, ?_, hmem⟩
              rw [hchar p, if_neg hpx, if_neg hpr, if_neg hpcs]
              exact hlq
    · -- child_parent
      intro y ly c hy hc
      rw [hchar y] at hy
      by_cases hyx : y = x
      · rw [if_pos hyx] at hy
        obtain rfl := Option.some_inj.mp hy
        obtain ⟨lc, hlc, hcp⟩ := hcs c hc
        have hcr : c ≠ r := fun he => hrnotin (he ▸ hc)
        have hcx : c ≠ x := fun he => hxnotin (he ▸ hc)
        refine ⟨⟨some x, lc.children⟩, ?_, by rw [hyx]⟩
        rw [hchar c, if_neg hcx, if_neg hcr, if_pos hc, hlc]
        rfl
      · rw [if_neg hyx] at hy
        by_cases hyr : y = r
        · rw [if_pos hyr] at hy
          cases hy
        · rw [if_neg hyr] at hy
          by_cases hycs : y ∈ lr.children
          · rw [if_pos hycs] at hy
            obtain ⟨ly0, hly0, hmap⟩ := hmapinv y ly hy
            rw [hmap] at hc
            obtain ⟨lc, hlc, hcp⟩ := hcore.child_parent hly0 hc
            have hcr : c ≠ r := by
              rintro rfl
              rw [hlr] at hlc
              obtain rfl := Option.some_inj.mp hlc
              rw [hlrp] at hcp
              cases hcp
            have hcx : c ≠ x := hqnex c lc hlc hcr
            have hccs : c ∉ lr.children := by
              intro hcm
              obtain ⟨lc2, hlc2, hcp2⟩ := hcs c hcm
              rw [hlc] at hlc2
              obtain rfl := Option.some_inj.mp hlc2
              rw [hcp] at hcp2
              exact hyr (Option.some_inj.mp hcp2)
            refine ⟨lc, ?_, hcp⟩
            rw [hchar c, if_neg hcx, if_neg hcr, if_neg hccs]
            exact hlc
          · rw [if_neg hycs] at hy
            obtain ⟨lc, hlc, hcp⟩ := hcore.child_parent hy hc
            have hcr : c ≠ r := by
              rintro rfl
              rw [hlr] at hlc
              obtain rfl := Option.some_inj.mp hlc
              rw [hlrp] at hcp
              cases hcp
            have hcx : c ≠ x := hqnex c lc hlc hcr
            have hccs : c ∉ lr.children := by
              intro hcm
              obtain ⟨lc2, hlc2, hcp2⟩ := hcs c hcm
              rw [hlc] at hlc2
              obtain rfl := Option.some_inj.mp hlc2
              rw [hcp] at hcp2
              exact hyr (Option.some_inj.mp hcp2)
            refine ⟨lc, ?_, hcp⟩
            rw [hchar c, if_neg hcx, if_neg hcr, if_neg hccs]
            exact hlc
    · -- children lists stay duplicate free
      intro y ly hy
      rw [hchar y] at hy
      by_cases hyx : y = x
      · rw [if_pos hyx] at hy
        obtain rfl := Option.some_inj.mp hy
        have hnd0 := hcore.children_nodup hlr
        exact hnd0
      · rw [if_neg hyx] at hy
        by_cases hyr : y = r
        · rw [if_pos hyr] at hy
          cases hy
        · rw [if_neg hyr] at hy
          by_cases hycs : y ∈ lr.children
          · rw [if_pos hycs] at hy
            obtain ⟨ly0, hly0, hmap⟩ := hmapinv y ly hy
            rw [hmap]
            have hnd0 := hcore.children_nodup hly0
            exact hnd0
          · rw [if_neg hycs] at hy
            exact hcore.children_nodup hy
    · -- one root
      have honly : ∀ y ly, t''.links y = some ly → ly.parent = none → y = x := by
        intro y ly hy hpl
        by_cases hyx : y = x
        · exact hyx
        · exfalso
          rw [hchar y, if_neg hyx] at hy
          by_cases hyr : y = r
          · rw [if_pos hyr] at hy
            cases hy
          · rw [if_neg hyr] at hy
            by_cases hycs : y ∈ lr.children
            · rw [if_pos hycs] at hy
              obtain ⟨ly0, hly0, hmap⟩ := hmapinv y ly hy
              rw [hmap] at hpl
              cases hpl
            · rw [if_neg hycs] at hy
              exact hyr (hcore.one_root hy hlr hpl hlrp)
      intro y1 l1 y2 l2 h1 h2 hp1 hp2
      rw [honly y1 l1 h1 hp1, honly y2 l2 h2 hp2]
    · -- depth function
      refine ⟨fun y => if y = x then 0 else rank y, Canon.of_agree hnd' ?_⟩
      intro y ly hy
      rw [hchar y] at hy
      by_cases hyx : y = x
      · rw [if_pos hyx] at hy
        obtain rfl := Option.some_inj.mp hy
        simp [hyx]
      · rw [if_neg hyx] at hy
        by_cases hyr : y = r
        · rw [if_pos hyr] at hy
          cases hy
        · rw [if_neg hyr] at hy
          by_cases hycs : y ∈ lr.children
          · rw [if_pos hycs] at hy
            obtain ⟨ly0, hly0, hmap⟩ := hmapinv y ly hy
            obtain ⟨lc, hlc, hcp⟩ := hcs y hycs
            rw [hly0] at hlc
            obtain rfl := Option.some_inj.mp hlc
            have hry := hcn.rank_parent hly0 hcp
            rw [hmap]
            simp [hyx, hry, hrrank]
          · rw [if_neg hycs] at hy
            have hthis := hcn.links_eq hy
            cases hq : ly.parent with
            | none => exact absurd (hcore.one_root hy hlr hq hlrp) hyr
            | some q =>
              obtain ⟨lq, hlq, hqmem⟩ := hcore.parent_in hy hq
              have hqr : q ≠ r := by
                rintro rfl
                rw [hlr] at hlq
                obtain rfl := Option.some_inj.mp hlq
                exact hycs hqmem
              have hqx : ¬ q = x := hqnex q lq hlq hqr
              simp [hq, hqx] at hthis ⊢
              simp [hyx, hthis]

/-! ## The invariant along guarded operation sequences -/

theorem wf_new : WF (new : MappedTree T) := by
  refine ⟨⟨by simp [keysOf, new], by simp [keysOf, new], ?_, ?_, ?_, ?_⟩, fun _ => 0, ?_⟩
  · rintro ⟨k, lk⟩ hmem
    simp [new] at hmem
  · rintro ⟨k, lk⟩ hmem
    simp [new] at hmem
  · rintro ⟨k, lk⟩ hmem
    simp [new] at hmem
  · rintro ⟨k1, l1⟩ hm1
    simp [new] at hm1
  · rintro ⟨k, lk⟩ hmem
    simp [new] at hmem

/-- Each guarded public operation preserves the invariant. -/
theorem applyOp_wf {t t' : MappedTree T} {op : Op T} (hwf : WF t)
    (hok : okOp t op = true) (h : applyOp t op = some t') : WF t' := by
  cases op with
  | resetRoot x =>
    have hguard : t.contains x = true → t.parent x = none := by
      intro hcx
      rw [okOp, hcx] at hok
      simp at hok
      exact hok
    simp only [applyOp] at h
    cases hrr : reset_root t x with
    | none => rw [hrr] at h; cases h
    | some pr =>
      obtain ⟨t2, ret⟩ := pr
      rw [hrr] at h
      simp only [Option.map_some'] at h
      obtain rfl := Option.some_inj.mp h
      exact reset_root_wf hwf hguard hrr
  | insertOp o p =>
    simp only [applyOp] at h
    cases hins : insert t o p with
    | error e => rw [hins] at h; cases h
    | ok t2 =>
      rw [hins] at h
      obtain rfl := Option.some_inj.mp h
      exact insert_wf hwf hins
  | removeOp k =>
    simp only [applyOp] at h
    cases hk : t.links k with
    | none =>
      rw [show t.fuelOf = t.links_by_obj.length + 1 from rfl,
        remove_absent t.links_by_obj.length hk] at h
      simp only [Option.map_some'] at h
      obtain rfl := Option.some_inj.mp h
      exact hwf
    | some lk =>
      obtain ⟨hcore, rank, hcn⟩ := hwf
      have hgood : Good t rank (keysOf t).length :=
        ⟨hcore, hcn, fun y hy => by
          obtain ⟨ly, hly⟩ := links_isSome_of_mem_keys hy
          exact rank_lt_keys_length hcore hcn hly⟩
      have hfuel : (keysOf t).length ≤ t.fuelOf + rank k := by
        unfold fuelOf keysOf
        simp only [List.length_map]
        omega
      obtain ⟨t2, hrm, hg2, _, _⟩ := remove_spec t.fuelOf t k lk hgood hk hfuel
      rw [hrm] at h
      simp only [Option.map_some'] at h
      obtain rfl := Option.some_inj.mp h
      exact ⟨hg2.wf, rank, hg2.canon⟩
  | removeChildrenOp k =>
    simp only [applyOp] at h
    cases hk : t.links k with
    | none =>
      rw [show t.fuelOf = t.links_by_obj.length + 1 from rfl,
        remove_children_absent t.links_by_obj.length hk] at h
      obtain rfl := Option.some_inj.mp h
      exact hwf
    | some lk =>
      obtain ⟨hcore, rank, hcn⟩ := hwf
      have hgood : Good t rank (keysOf t).length :=
        ⟨hcore, hcn, fun y hy => by
          obtain ⟨ly, hly⟩ := links_isSome_of_mem_keys hy
          exact rank_lt_keys_length hcore hcn hly⟩
      have hfuel : (keysOf t).length ≤ t.fuelOf + rank k := by
        unfold fuelOf keysOf
        simp only [List.length_map]
        omega
      obtain ⟨t2, hrm, hg2, _⟩ := rc_spec t.fuelOf t k lk hgood hk hfuel
      rw [hrm] at h
      obtain rfl := Option.some_inj.mp h
      exact ⟨hg2.wf, rank, hg2.canon⟩

theorem runGoodFrom_wf : ∀ (ops : List (Op T)) (t t' : MappedTree T), WF t →
    runGoodFrom t ops = some t' → WF t' := by
  intro ops
  induction ops with
  | nil =>
    intro t t' hwf h
    rw [runGoodFrom] at h
    obtain rfl := Option.some_inj.mp h
    exact hwf
  | cons op ops ih =>
    intro t t' hwf h
    rw [runGoodFrom] at h
    cases hok : okOp t op with
    | false =>
      simp only [hok, Bool.false_eq_true, if_false] at h
      cases h
    | true =>
      simp only [hok, if_true] at h
      cases ha : applyOp t op with
      | none =>
        rw [ha] at h
        cases h
      | some t1 =>
        rw [ha] at h
        exact ih t1 t' (applyOp_wf hwf hok ha) h

/-- Every state reachable by a guarded operation sequence from the empty
tree satisfies the invariant. -/
theorem runGood_wf {ops : List (Op T)} {t : MappedTree T} (h : runGood ops = some t) :
    WF t :=
  runGoodFrom_wf ops new t wf_new h

/-! ## Remaining helper lemmas for the claims -/

theorem root_not_own_child {t : MappedTree T} (hcore : WFcore t) {r : T} {lr : Links T}
    (hlr : t.links r = some lr) (hlrp : lr.parent = none) : r ∉ lr.children := by
  intro hm
  obtain ⟨lc, hlc, hcp⟩ := hcore.child_parent hlr hm
  rw [hlr] at hlc
  obtain rfl := Option.some_inj.mp hlc
  rw [hlrp] at hcp
  cases hcp

/-- Counting removed keys: if the keys of `t'` form a duplicate-free
subcollection of the keys of `t`, the key count drops by exactly the
number of keys of `t` no longer present. -/
theorem count_removed {t t' : MappedTree T} (hnd : (keysOf t).Nodup)
    (hnd' : (keysOf t').Nodup)
    (hsub : ∀ y, y ∈ keysOf t' → y ∈ keysOf t) :
    (keysOf t).length = (keysOf t').length +
      ((keysOf t).filter (fun y => !t'.contains y)).length := by
  have hpart := @List.length_eq_length_filter_add T (keysOf t) (fun y => t'.contains y)
  have hperm : ((keysOf t).filter (fun y => t'.contains y)).Perm (keysOf t') := by
    apply List.Subperm.antisymm
    · apply List.Nodup.subperm (hnd.filter _)
      intro a ha
      simp only [List.mem_filter] at ha
      exact (contains_iff_mem_keys t' a).mp ha.2
    · apply List.Nodup.subperm hnd'
      intro a ha
      simp only [List.mem_filter]
      exact ⟨hsub a ha, (contains_iff_mem_keys t' a).mpr ha⟩
  rw [hperm.length_eq] at hpart
  exact hpart

/-- The 8-node scenario tree satisfies the invariant (`rank8` is its depth
function). -/
theorem wf_t8 : WF t8 := ⟨by decide, rank8, by decide⟩

/-! ## The claims -/

/-- C1, counterexample: the public operation sequence `reset_root 0`,
`insert 1 0`, `reset_root 1` runs to completion (the final `reset_root`
passes a key that is present as a non-root node), yet afterwards `len()`
is `2` while `contains` returns `true` for exactly the single key `1` —
the size counter does not equal the number of keys for which `contains`
returns `true`, refuting the claim as stated. -/
theorem size_consistency_counterexample :
    ∃ t : MappedTree Nat, run badOps = some t ∧ t.len = 2 ∧ keysOf t = [1] ∧
      t.contains 1 = true ∧ ∀ k : Nat, k ≠ 1 → t.contains k = false := by
  refine ⟨⟨[(1, ⟨none, [1]⟩)], 2⟩, by decide, rfl, rfl, rfl, ?_⟩
  intro k hk
  show (mapGet k [(1, ⟨none, [1]⟩)]).isSome = false
  rw [mapGet, if_neg (fun h => hk h.symm)]
  rfl

/-- C1, amended: after every sequence of public operations starting from
the empty tree in which every `reset_root` call passes a key that is
absent or already parentless (the current root), `len()` equals the number
of keys for which `contains` returns `true`: the key list is duplicate
free, `contains` holds exactly on it, and `len()` is its length. -/
theorem size_consistency_amended {T : Type} [DecidableEq T] {ops : List (Op T)}
    {t : MappedTree T} (h : runGood ops = some t) :
    t.len = (keysOf t).length ∧ (keysOf t).Nodup ∧
      ∀ k, t.contains k = true ↔ k ∈ keysOf t := by
  obtain ⟨hcore, _, _⟩ := runGood_wf h
  exact ⟨hcore.size_eq, hcore.keys_nodup, fun k => contains_iff_mem_keys t k⟩

/-- Witness for the amended C1 at the concrete scenario sequence. -/
theorem size_consistency_amended_witness :
    runGood t8ops = some t8 ∧
      (t8.len = (keysOf t8).length ∧ (keysOf t8).Nodup ∧
        ∀ k, t8.contains k = true ↔ k ∈ keysOf t8) :=
  ⟨by decide, @size_consistency_amended Nat _ t8ops t8 (by decide)⟩

/-- C2, counterexample: after the public operation sequence `reset_root 0`,
`insert 1 0`, `reset_root 1`, the present key `1` has `1` in its own
children list while `parent 1` is `none`, not `some 1` — refuting
"for every `c` in `children k`, `parent c = some k`" as stated. -/
theorem link_consistency_counterexample :
    ∃ t : MappedTree Nat, run badOps = some t ∧ t.contains 1 = true ∧
      1 ∈ childrenOf t 1 ∧ t.parent 1 = none :=
  ⟨⟨[(1, ⟨none, [1]⟩)], 2⟩, by decide, by decide, by decide, by decide⟩

/-- C2, amended: after every sequence of public operations from the empty
tree in which every `reset_root` call passes an absent or parentless key,
the links are bidirectionally consistent: if `parent k = some p` then `p`
is present and `k` is among `p`'s children, and every `c` in the children
list of a present `k` has `parent c = some k`. -/
theorem link_consistency_amended {T : Type} [DecidableEq T] {ops : List (Op T)}
    {t : MappedTree T} (h : runGood ops = some t) :
    (∀ k p, t.parent k = some p → t.contains p = true ∧ k ∈ childrenOf t p) ∧
    (∀ k c, t.contains k = true → c ∈ childrenOf t k → t.parent c = some k) := by
  obtain ⟨hcore, _, _⟩ := runGood_wf h
  constructor
  · intro k p hp
    obtain ⟨lk, hlk, hlkp⟩ := (parent_eq_some_iff ..).mp hp
    obtain ⟨lp, hlp, hmem⟩ := hcore.parent_in hlk hlkp
    refine ⟨by simp [contains, hlp], ?_⟩
    rw [childrenOf_eq hlp]
    exact hmem
  · intro k c _ hc
    obtain ⟨lc, hlc, hcp⟩ := childrenOf_mem_links hcore hc
    exact (parent_eq_some_iff ..).mpr ⟨lc, hlc, hcp⟩

/-- Witness for the amended C2 at the concrete scenario sequence. -/
theorem link_consistency_amended_witness :
    runGood t8ops = some t8 ∧
      ((∀ k p, t8.parent k = some p → t8.contains p = true ∧ k ∈ childrenOf t8 p) ∧
       (∀ k c, t8.contains k = true → c ∈ childrenOf t8 k → t8.parent c = some k)) :=
  ⟨by decide, @link_consistency_amended Nat _ t8ops t8 (by decide)⟩

/-- C3: `insert key parent` rejects with the distinguishable error
`duplicateKey` exactly when the key is already present (that check comes
first), rejects with `missingParent` exactly when the key is fresh and the
parent absent, and succeeds exactly otherwise.  The checks precede any
mutation: a rejected insert produces no state at all, so nothing is
mutated. -/
theorem insert_rejects_iff {T : Type} [DecidableEq T] (t : MappedTree T) (obj par : T) :
    (insert t obj par = .error .duplicateKey ↔ t.contains obj = true) ∧
    (insert t obj par = .error .missingParent ↔
      t.contains obj = false ∧ t.contains par = false) ∧
    ((∃ t', insert t obj par = .ok t') ↔
      t.contains obj = false ∧ t.contains par = true) := by
  cases ho : t.links obj with
  | some lo =>
    have hdup := @insert_dup T _ t obj par (by simp [ho])
    have hco : t.contains obj = true := by simp [contains, ho]
    refine ⟨⟨fun _ => hco, fun _ => hdup⟩, ⟨?_, ?_⟩, ⟨?_, ?_⟩⟩
    · intro hmiss
      rw [hdup] at hmiss
      simp at hmiss
    · rintro ⟨h1, _⟩
      rw [hco] at h1
      cases h1
    · rintro ⟨t', ht'⟩
      rw [hdup] at ht'
      cases ht'
    · rintro ⟨h1, _⟩
      rw [hco] at h1
      cases h1
  | none =>
    have hco : t.contains obj = false := by simp [contains, ho]
    cases hp : t.links par with
    | none =>
      have hmiss := insert_missing ho hp
      have hcp : t.contains par = false := by simp [contains, hp]
      refine ⟨⟨?_, ?_⟩, ⟨fun _ => ⟨hco, hcp⟩, fun _ => hmiss⟩, ⟨?_, ?_⟩⟩
      · intro hd
        rw [hmiss] at hd
        simp at hd
      · intro hc
        rw [hco] at hc
        cases hc
      · rintro ⟨t', ht'⟩
        rw [hmiss] at ht'
        cases ht'
      · rintro ⟨_, h2⟩
        rw [hcp] at h2
        cases h2
    | some lp =>
      have hok := insert_ok ho hp
      have hcp : t.contains par = true := by simp [contains, hp]
      refine ⟨⟨?_, ?_⟩, ⟨?_, ?_⟩, ⟨fun _ => ⟨hco, hcp⟩, fun _ => ⟨_, hok⟩⟩⟩
      · intro hd
        rw [hok] at hd
        cases hd
      · intro hc
        rw [hco] at hc
        cases hc
      · intro hd
        rw [hok] at hd
        cases hd
      · rintro ⟨_, h2⟩
        rw [hcp] at h2
        cases h2

/-- C5: removing an absent key is a recoverable no-op — `remove` returns
the boolean `false` rather than aborting, and the whole structure (link
table and size) is returned unchanged. -/
theorem remove_absent_noop {T : Type} [DecidableEq T] (t : MappedTree T) (k : T)
    (h : t.contains k = false) : remove t.fuelOf t k = some (t, false) := by
  rw [show t.fuelOf = t.links_by_obj.length + 1 from rfl]
  exact remove_absent t.links_by_obj.length ((contains_eq_false_iff ..).mp h)

/-- Witness for C5 at the scenario tree and the absent key 42. -/
theorem remove_absent_noop_witness :
    t8.contains 42 = false ∧ remove t8.fuelOf t8 42 = some (t8, false) :=
  ⟨by decide, remove_absent_noop t8 42 (by decide)⟩

/-- C4: on a tree satisfying the invariants with `k` present, `remove k`
(at the standard public fuel) succeeds and returns `true`, and afterwards
neither `k` nor any key that was reachable from `k` through the children
relation remains present; the invariants still hold in the result. -/
theorem remove_cascades {T : Type} [DecidableEq T] {t : MappedTree T} {k : T}
    (hwf : WF t) (hk : t.contains k = true) :
    ∃ t', remove t.fuelOf t k = some (t', true) ∧ t'.contains k = false ∧
      (∀ y, Desc t k y → t'.contains y = false) ∧ WF t' := by
  obtain ⟨lk, hlk⟩ := (contains_eq_true_iff t k).mp hk
  obtain ⟨hcore, rank, hcn⟩ := hwf
  have hgood : Good t rank (keysOf t).length :=
    ⟨hcore, hcn, fun y hy => by
      obtain ⟨ly, hly⟩ := links_isSome_of_mem_keys hy
      exact rank_lt_keys_length hcore hcn hly⟩
  have hfuel : (keysOf t).length ≤ t.fuelOf + rank k := by
    unfold fuelOf keysOf
    simp only [List.length_map]
    omega
  obtain ⟨t', hrm, hg', htk, hdesc⟩ := remove_spec t.fuelOf t k lk hgood hlk hfuel
  exact ⟨t', hrm, (contains_eq_false_iff t' k).mpr htk,
    fun y hd => (contains_eq_false_iff t' y).mpr (hdesc y hd), hg'.wf, rank, hg'.canon⟩

/-- Witness for C4 on the scenario tree, cascading from key 2. -/
theorem remove_cascades_witness :
    WF t8 ∧ t8.contains 2 = true ∧
      (∃ t', remove t8.fuelOf t8 2 = some (t', true) ∧ t'.contains 2 = false ∧
        (∀ y, Desc t8 2 y → t'.contains y = false) ∧ WF t') :=
  ⟨wf_t8, by decide, remove_cascades wf_t8 (by decide)⟩

/-- C6: `remove_children k` on an invariant-satisfying tree with `k`
present empties exactly the subtree below `k`: every proper descendant
becomes absent (the size dropping by the number of removed keys), `k`
itself stays present with an emptied children list, and every record
outside `k`'s subtree is untouched.  On the literal 8-node scenario tree,
`remove_children 2` leaves 5, 6 and 7 absent, key 2 present with no
children, and `len()` equal to 5. -/
theorem remove_children_subtree_contents :
    (∀ (T : Type) [DecidableEq T] (t : MappedTree T) (k : T), WF t → t.contains k = true →
      ∃ t', remove_children t.fuelOf t k = some t' ∧
        t'.contains k = true ∧ t'.children k = some [] ∧
        (∀ y, Desc t k y → t'.contains y = false) ∧
        (∀ y, y ≠ k → ¬ Desc t k y → t'.links y = t.links y) ∧
        t.len = t'.len + ((keysOf t).filter (fun y => !t'.contains y)).length) ∧
    (∃ t', remove_children t8.fuelOf t8 2 = some t' ∧
      t'.contains 5 = false ∧ t'.contains 6 = false ∧ t'.contains 7 = false ∧
      t'.children 2 = some [] ∧ t'.contains 2 = true ∧ t'.len = 5) := by
  constructor
  · intro T _ t k hwf hk
    obtain ⟨lk, hlk⟩ := (contains_eq_true_iff t k).mp hk
    obtain ⟨hcore, rank, hcn⟩ := hwf
    have hgood : Good t rank (keysOf t).length :=
      ⟨hcore, hcn, fun y hy => by
        obtain ⟨ly, hly⟩ := links_isSome_of_mem_keys hy
        exact rank_lt_keys_length hcore hcn hly⟩
    have hfuel : (keysOf t).length ≤ t.fuelOf + rank k := by
      unfold fuelOf keysOf
      simp only [List.length_map]
      omega
    obtain ⟨t', hrc, hg', hck, hdesc, hunch⟩ := rc_spec t.fuelOf t k lk hgood hlk hfuel
    have hsub : ∀ y, y ∈ keysOf t' → y ∈ keysOf t := by
      intro y hy
      obtain ⟨ly, hly⟩ := links_isSome_of_mem_keys hy
      by_cases hyk : y = k
      · subst hyk
        exact mem_keys_of_links hlk
      · by_cases hyd : Desc t k y
        · rw [hdesc y hyd] at hly
          cases hly
        · rw [hunch y hyk hyd] at hly
          exact mem_keys_of_links hly
    have hlen := count_removed hcore.keys_nodup hg'.wf.keys_nodup hsub
    have h1 : t.len = (keysOf t).length := hcore.size_eq
    have h2 : t'.len = (keysOf t').length := hg'.wf.size_eq
    refine ⟨t', hrc, by simp [contains, hck], by rw [children_eq_some hck],
      fun y hd => (contains_eq_false_iff t' y).mpr (hdesc y hd), hunch, by omega⟩
  · exact ⟨⟨[(0, ⟨none, [1, 2]⟩), (1, ⟨some 0, [3, 4]⟩), (2, ⟨some 0, []⟩),
      (3, ⟨some 1, []⟩), (4, ⟨some 1, []⟩)], 5⟩, by decide, by decide, by decide,
      by decide, by decide, by decide, by decide⟩

/-- Witness for the generic part of C6 on the scenario tree at key 1. -/
theorem remove_children_subtree_contents_witness :
    WF t8 ∧ t8.contains 1 = true ∧
      (∃ t', remove_children t8.fuelOf t8 1 = some t' ∧
        t'.contains 1 = true ∧ t'.children 1 = some [] ∧
        (∀ y, Desc t8 1 y → t'.contains y = false) ∧
        (∀ y, y ≠ 1 → ¬ Desc t8 1 y → t'.links y = t8.links y) ∧
        t8.len = t'.len + ((keysOf t8).filter (fun y => !t'.contains y)).length) :=
  ⟨wf_t8, by decide, remove_children_subtree_contents.1 Nat t8 1 wf_t8 (by decide)⟩

/-- C7: rebasing a non-empty invariant-satisfying tree onto `x` removes
the old root `r`'s record, reparents each of `r`'s former direct children
to `x`, installs `x` as the new parentless apex carrying exactly those
children, leaves every other record and the size untouched, and returns
the old root's key. -/
theorem reset_root_rebase {T : Type} [DecidableEq T] {t : MappedTree T} {r : T}
    (hwf : WF t) (hroot : root t = some r) (x : T) :
    ∃ cs t', t.children r = some cs ∧ reset_root t x = some (t', some r) ∧
      t'.contains x = true ∧ t'.parent x = none ∧ t'.children x = some cs ∧
      (x ≠ r → t'.contains r = false) ∧
      (∀ c ∈ cs, c ≠ x → t'.parent c = some x) ∧
      (∀ y, y ≠ x → y ≠ r → y ∉ cs → t'.links y = t.links y) ∧
      t'.len = t.len := by
  obtain ⟨hcore, rank, hcn⟩ := hwf
  obtain ⟨lr, hlr, hlrp, t1, t', heq, hsz, hkeys1, ht'eq, hchar⟩ :=
    reset_root_nonempty_spec hcore hcn hroot x
  have hrx : t'.links x = some ⟨none, lr.children⟩ := by rw [hchar x, if_pos rfl]
  have hrnotin : r ∉ lr.children := root_not_own_child hcore hlr hlrp
  refine ⟨lr.children, t', children_eq_some hlr, heq, ?_, ?_, ?_, ?_, ?_, ?_, hsz⟩
  · simp [contains, hrx]
  · simp [parent, hrx]
  · simp [children, hrx]
  · intro hxr
    have hnr : t'.links r = none := by
      rw [hchar r, if_neg (fun h => hxr h.symm), if_pos rfl]
    simp [contains, hnr]
  · intro c hc hcx
    have hcr : c ≠ r := fun he => hrnotin (he ▸ hc)
    have hrec : t'.links c = (t.links c).map (fun l => ⟨some x, l.children⟩) := by
      rw [hchar c, if_neg hcx, if_neg hcr, if_pos hc]
    obtain ⟨lc, hlc, _⟩ := hcore.child_parent hlr hc
    refine (parent_eq_some_iff t' c x).mpr ⟨⟨some x, lc.children⟩, ?_, rfl⟩
    rw [hrec, hlc]
    rfl
  · intro y hyx hyr hycs
    rw [hchar y, if_neg hyx, if_neg hyr, if_neg hycs]

/-- Witness for C7 on the scenario tree, rebasing onto the fresh key 9. -/
theorem reset_root_rebase_witness :
    WF t8 ∧ root t8 = some 0 ∧
      (∃ cs t', t8.children 0 = some cs ∧ reset_root t8 9 = some (t', some 0) ∧
        t'.contains 9 = true ∧ t'.parent 9 = none ∧ t'.children 9 = some cs ∧
        ((9 : Nat) ≠ 0 → t'.contains 0 = false) ∧
        (∀ c ∈ cs, c ≠ 9 → t'.parent c = some 9) ∧
        (∀ y, y ≠ 9 → y ≠ 0 → y ∉ cs → t'.links y = t8.links y) ∧
        t'.len = t8.len) :=
  ⟨wf_t8, by decide, reset_root_rebase wf_t8 (by decide) 9⟩

/-- C8: root discovery — on an invariant-satisfying tree, `root()` returns
nothing exactly on the empty tree; otherwise the upward parent walk from
any present key terminates within the public fuel at a present parentless
key, that key is the unique parentless key, and `root()` returns it. -/
theorem root_discovery {T : Type} [DecidableEq T] {t : MappedTree T} (hwf : WF t) :
    (t.links_by_obj = [] → root t = none) ∧
    (∀ k, t.contains k = true →
      ∃ r, rootFrom t t.fuelOf k = some r ∧ t.parent r = none ∧
        t.contains r = true ∧ root t = some r ∧
        ∀ r', t.contains r' = true → t.parent r' = none → r' = r) := by
  obtain ⟨hcore, rank, hcn⟩ := hwf
  constructor
  · intro hl
    unfold root
    rw [hl]
  · intro k hk
    obtain ⟨lk, hlk⟩ := (contains_eq_true_iff t k).mp hk
    have hrk : rank k < t.fuelOf := by
      have h1 := rank_lt_keys_length hcore hcn hlk
      unfold keysOf at h1
      unfold fuelOf
      simp only [List.length_map] at h1
      omega
    obtain ⟨r, hr⟩ := rootFrom_succeeds hcore hcn t.fuelOf hlk hrk
    obtain ⟨lr, hlr⟩ := rootFrom_present hcore t.fuelOf hlk hr
    have hpn : t.parent r = none := rootFrom_parent_none t.fuelOf hr
    have hlrp : lr.parent = none := by
      cases hp : lr.parent with
      | none => rfl
      | some p =>
        have hps := (parent_eq_some_iff t r p).mpr ⟨lr, hlr, hp⟩
        rw [hpn] at hps
        cases hps
    have hne : t.links_by_obj ≠ [] := by
      intro hl
      have h0 : t.links k = none := by
        unfold links
        rw [hl, mapGet]
      rw [h0] at hlk
      cases hlk
    obtain ⟨r0, lr0, hroot0, hlr0, hlr0p⟩ := root_spec hcore hcn hne
    have hr0r : r0 = r := hcore.one_root hlr0 hlr hlr0p hlrp
    refine ⟨r, hr, hpn, by simp [contains, hlr], by rw [hroot0, hr0r], ?_⟩
    intro r' hc' hp'
    obtain ⟨lr', hlr'⟩ := (contains_eq_true_iff t r').mp hc'
    have hlr'p : lr'.parent = none := by
      cases hp2 : lr'.parent with
      | none => rfl
      | some p =>
        have hps := (parent_eq_some_iff t r' p).mpr ⟨lr', hlr', hp2⟩
        rw [hp'] at hps
        cases hps
    exact hcore.one_root hlr' hlr hlr'p hlrp

/-- Witness for C8 on the scenario tree, walking up from key 6. -/
theorem root_discovery_witness :
    WF t8 ∧ t8.contains 6 = true ∧
      (∃ r, rootFrom t8 t8.fuelOf 6 = some r ∧ t8.parent r = none ∧
        t8.contains r = true ∧ root t8 = some r ∧
        ∀ r', t8.contains r' = true → t8.parent r' = none → r' = r) :=
  ⟨wf_t8, by decide, (root_discovery wf_t8).2 6 (by decide)⟩

/-- C9: the `parent` accessor on an invariant-satisfying tree — it returns
`none` for an absent key and for the root (so those two cases are
indistinguishable through `parent` alone, as the claim states), and every
present non-root key has `some` parent. -/
theorem parent_accessor {T : Type} [DecidableEq T] {t : MappedTree T} (hwf : WF t) (k : T) :
    (t.contains k = false → t.parent k = none) ∧
    (root t = some k → t.parent k = none) ∧
    (t.contains k = true → root t ≠ some k → ∃ p, t.parent k = some p) := by
  obtain ⟨hcore, rank, hcn⟩ := hwf
  refine ⟨?_, ?_, ?_⟩
  · intro h
    exact parent_eq_none_of_absent ((contains_eq_false_iff t k).mp h)
  · intro h
    cases hl : t.links_by_obj with
    | nil =>
      unfold root at h
      rw [hl] at h
      cases h
    | cons hd rest =>
      obtain ⟨k0, l0⟩ := hd
      unfold root at h
      rw [hl] at h
      exact rootFrom_parent_none t.fuelOf h
  · intro hc hroot
    obtain ⟨lk, hlk⟩ := (contains_eq_true_iff t k).mp hc
    cases hp : lk.parent with
    | some p => exact ⟨p, (parent_eq_some_iff t k p).mpr ⟨lk, hlk, hp⟩⟩
    | none =>
      exfalso
      have hne : t.links_by_obj ≠ [] := by
        intro hl
        have h0 : t.links k = none := by
          unfold links
          rw [hl, mapGet]
        rw [h0] at hlk
        cases hlk
      obtain ⟨r0, lr0, hroot0, hlr0, hlr0p⟩ := root_spec hcore hcn hne
      have hr0k : r0 = k := hcore.one_root hlr0 hlk hlr0p hp
      exact hroot (by rw [hroot0, hr0k])

/-- Witness for C9 on the scenario tree at key 3. -/
theorem parent_accessor_witness :
    WF t8 ∧
      ((t8.contains 3 = false → t8.parent 3 = none) ∧
       (root t8 = some 3 → t8.parent 3 = none) ∧
       (t8.contains 3 = true → root t8 ≠ some 3 → ∃ p, t8.parent 3 = some p)) :=
  ⟨wf_t8, parent_accessor wf_t8 3⟩

/-- C10: `reset_root k` on the empty tree initialises it rather than being
a no-op: `k` becomes present, parentless and childless, `len()` becomes 1,
and the call returns nothing (there was no previous root). -/
theorem reset_root_empty_initializes {T : Type} [DecidableEq T] (k : T) :
    ∃ t', reset_root (new : MappedTree T) k = some (t', none) ∧
      t'.contains k = true ∧ t'.parent k = none ∧ t'.children k = some [] ∧
      t'.len = 1 := by
  refine ⟨⟨[(k, ⟨none, []⟩)], 1⟩, ?_, ?_, ?_, ?_, rfl⟩
  · exact reset_root_empty rfl k
  · simp [contains, links, mapGet]
  · simp [parent, links, mapGet]
  · simp [children, links, mapGet]

end MappedTree
